import Mathlib

/-!
Verification of the dynamic arc-consistency engine (`src/lib.rs`).

The Rust source is shallowly embedded: machine integers `usize`/`i32`
become `Nat`/`Int`, in-place mutation becomes explicit state passing,
`Result`/`panic!` become explicit result constructors, and the worklist
loop is driven by an explicit fuel parameter (`Abort.fuelOut` marks fuel
exhaustion, a modelling artefact; every theorem about a completed run is
stated for arbitrary fuel).  The `HashMap` of constraints is modelled as
an association list iterated in insertion order (Rust's iteration order
is unspecified; insertion order is one faithful instance).  The `HashSet`
`in_queue` is modelled as a duplicate-free list.
-/

namespace DynamicAC

/-- Kind of a binary constraint, mirroring `enum ConstraintKind`. -/
inductive ConstraintKind where
  | equality : ConstraintKind
  | inequality : ConstraintKind
deriving DecidableEq, Repr

/-- One value slot of a variable, mirroring `struct ValueState`:
a value together with the optional id of the constraint that suppressed it. -/
structure ValueState where
  value : Int
  suppressed_by : Option Nat
deriving DecidableEq, Repr

/-- The engine state, mirroring `struct Engine`.  `values` is the per-variable
slot array; `constraints` is the registry `HashMap<usize,(usize,usize,kind)>`
as an association list `(id, var1, var2, kind)`; `listeners` records the
`set_listener` registrations as `(variable, callback token)` pairs in
registration order (callbacks themselves are opaque); `invocations` is a ghost
log of callback invocations — the source never invokes a callback, so no
operation of the model appends to it. -/
structure Engine where
  values : List (List ValueState)
  constraints : List (Nat × Nat × Nat × ConstraintKind)
  listeners : List (Nat × Nat)
  invocations : List Nat
deriving DecidableEq, Repr

/-- The fresh engine, `Engine::new`. -/
def engineInit : Engine := ⟨[], [], [], []⟩

/-- Values of the live (unsuppressed) slots of a domain, in slot order. -/
def activeDom (d : List ValueState) : List Int :=
  (d.filter (fun st => st.suppressed_by.isNone)).map (fun st => st.value)

/-- Support test from `Engine::revise`: under equality the value must occur in
the active values of the partner; under inequality the partner must contain a
different value. -/
def hasSupport : ConstraintKind → Int → List Int → Bool
  | .equality, v, activeB => activeB.contains v
  | .inequality, v, activeB => activeB.any (fun w => w != v)

/-- The per-slot reconciliation of `Engine::revise`: a supported slot owned by
`cid` is revived; an unsupported unowned slot is killed by `cid`; everything
else is untouched. -/
def reviseSlot (cid : Nat) (activeB : List Int) (k : ConstraintKind)
    (st : ValueState) : ValueState :=
  if hasSupport k st.value activeB then
    if st.suppressed_by = some cid then { st with suppressed_by := none } else st
  else
    if st.suppressed_by = none then { st with suppressed_by := some cid } else st

/-- Result of `Engine::revise`: an out-of-range variable index models the Rust
indexing panic; `wiped` models `Err(DomainWipeout(var1))` and carries the
mutated state (the Rust `self` keeps the mutations made before the error). -/
inductive ReviseRes where
  | indexErr : ReviseRes
  | wiped : Nat → Engine → ReviseRes
  | ok : Engine → Bool → ReviseRes
deriving DecidableEq, Repr

/-- `Engine::revise(var1, var2, kind, id)`.  The active values of `var2` are
collected first (from the unmutated state, as in the source), every slot of
`var1` is reconciled, and a wipeout is reported iff no slot of `var1` is left
live.  The changed flag is true iff some slot was mutated. -/
def revise (s : Engine) (var1 var2 : Nat) (kind : ConstraintKind) (id : Nat) :
    ReviseRes :=
  match s.values.get? var2 with
  | none => .indexErr
  | some domB =>
    match s.values.get? var1 with
    | none => .indexErr
    | some domA =>
      let activeB := activeDom domB
      let domA1 := domA.map (reviseSlot id activeB kind)
      let s1 : Engine := { s with values := s.values.set var1 domA1 }
      if domA1.all (fun st => st.suppressed_by.isSome) then .wiped var1 s1
      else .ok s1 (decide (domA1 ≠ domA))

/-- Abnormal outcomes of the propagation loop: `indexErr` models an indexing
panic inside `revise`; `missingKey c` models the `unwrap` panic on
`constraints.get(&c)` when `c` is not registered; `fuelOut` is the modelling
artefact for an execution longer than the supplied fuel. -/
inductive Abort where
  | indexErr : Abort
  | missingKey : Nat → Abort
  | fuelOut : Abort
deriving DecidableEq, Repr

/-- Result of the propagation loop. -/
inductive PResult where
  | ok : Engine → PResult
  | wiped : Nat → Engine → PResult
  | abort : Abort → PResult
deriving DecidableEq, Repr

/-- One enqueue scan of `propagate_from_queue`: walk the registry and push
every constraint incident on `v`, other than `c`, that is not already in the
membership set. -/
def enqueueIncident (cs : List (Nat × Nat × Nat × ConstraintKind)) (c v : Nat)
    (qi : List Nat × List Nat) : List Nat × List Nat :=
  cs.foldl
    (fun qi e =>
      if e.1 ≠ c ∧ ¬ qi.2.contains e.1 ∧ (e.2.1 = v ∨ e.2.2.1 = v) then
        (qi.1 ++ [e.1], qi.2 ++ [e.1])
      else qi)
    qi

/-- The two enqueue scans of one loop iteration, for `var1` then `var2`. -/
def enqueueBoth (cs : List (Nat × Nat × Nat × ConstraintKind)) (c v1 v2 : Nat)
    (q1 inq1 : List Nat) : List Nat × List Nat :=
  enqueueIncident cs c v2 (enqueueIncident cs c v1 (q1, inq1))

/-- Registry lookup, `constraints.get(&id)`. -/
def lookupC (cs : List (Nat × Nat × Nat × ConstraintKind)) (id : Nat) :
    Option (Nat × Nat × ConstraintKind) :=
  (cs.find? (fun e => e.1 = id)).map (fun e => e.2)

/-- Outcome of processing one popped constraint: either a terminal result of
the whole loop, or the next engine together with the changed flag and the two
variables of the constraint. -/
inductive StepRes where
  | term : PResult → StepRes
  | next : Engine → Bool → Nat → Nat → StepRes
deriving DecidableEq, Repr

/-- The body of one iteration of `propagate_from_queue` for popped id `c`:
look the constraint up (the source `unwrap`s — a missing key is a panic),
revise the arc `var1 ← var2`, then the arc `var2 ← var1`; a wipeout aborts the
loop. -/
def stepConstraint (s : Engine) (c : Nat) : StepRes :=
  match lookupC s.constraints c with
  | none => .term (.abort (.missingKey c))
  | some (var1, var2, kind) =>
    match revise s var1 var2 kind c with
    | .indexErr => .term (.abort .indexErr)
    | .wiped v s1 => .term (.wiped v s1)
    | .ok s1 ch1 =>
      match revise s1 var2 var1 kind c with
      | .indexErr => .term (.abort .indexErr)
      | .wiped v s2 => .term (.wiped v s2)
      | .ok s2 ch2 => .next s2 (ch1 || ch2) var1 var2

/-- The worklist loop of `Engine::propagate_from_queue`.  `q` is the FIFO
`prop_q`, `inq` the `HashSet in_queue` (a duplicate-free list mirroring the
set).  On a change, every other constraint incident on either variable and not
already queued is enqueued. -/
def propagateLoop : Nat → Engine → List Nat → List Nat → PResult
  | 0, _, _, _ => .abort .fuelOut
  | fuel + 1, s, q, inq =>
    match q with
    | [] => .ok s
    | c :: q1 =>
      match stepConstraint s c with
      | .term r => r
      | .next s2 changed var1 var2 =>
        if changed then
          propagateLoop fuel s2
            (enqueueBoth s2.constraints c var1 var2 q1 (inq.erase c)).1
            (enqueueBoth s2.constraints c var1 var2 q1 (inq.erase c)).2
        else
          propagateLoop fuel s2 q1 (inq.erase c)

/-- `Engine::propagate_from_queue(initial)`: the membership set starts as the
set of elements of `initial`. -/
def propagateFromQueue (fuel : Nat) (s : Engine) (initial : List Nat) : PResult :=
  propagateLoop fuel s initial initial.eraseDups

/-- `Engine::propagate(start_id)`. -/
def propagate (fuel : Nat) (s : Engine) (startId : Nat) : PResult :=
  propagateFromQueue fuel s [startId]

/-- Ids of the registry entries incident on variable `v`, in registry order
(the scan of `propagate_touching`). -/
def incidentIds (cs : List (Nat × Nat × Nat × ConstraintKind)) (v : Nat) :
    List Nat :=
  (cs.filter (fun e => e.2.1 = v ∨ e.2.2.1 = v)).map (fun e => e.1)

/-- `Engine::propagate_touching(vars)`. -/
def propagateTouching (fuel : Nat) (s : Engine) (vars : List Nat) : PResult :=
  propagateFromQueue fuel s (vars.foldl (fun acc v => acc ++ incidentIds s.constraints v) [])

/-- Registry insertion, `constraints.insert(id, t)`: replaces the entry when
the key is already present (as `HashMap::insert` does), appends otherwise. -/
def insertC (cs : List (Nat × Nat × Nat × ConstraintKind)) (id : Nat)
    (t : Nat × Nat × ConstraintKind) : List (Nat × Nat × Nat × ConstraintKind) :=
  if (cs.find? (fun e => e.1 = id)).isSome then
    cs.map (fun e => if e.1 = id then (id, t) else e)
  else cs ++ [(id, t)]

/-- Registry removal, `constraints.remove(&id)`. -/
def removeC (cs : List (Nat × Nat × Nat × ConstraintKind)) (id : Nat) :
    List (Nat × Nat × Nat × ConstraintKind) :=
  cs.filter (fun e => e.1 ≠ id)

/-- `Engine::get_conflict_explanation(var_id)`: the distinct suppressor ids on
the slots of `var_id` (the source collects them into a `HashSet`; the model
keeps the first occurrence of each).  The source indexes `values[var_id]`,
which is always in range at its call site. -/
def getConflictExplanation (s : Engine) (varId : Nat) : List Nat :=
  ((s.values.getD varId []).filterMap (fun st => st.suppressed_by)).eraseDups

/-- Result of `new_eq` / `new_neq`. -/
inductive AddRes where
  | ok : Nat → Engine → AddRes
  | err : Nat → List Nat → Engine → AddRes
  | abort : Abort → AddRes
deriving DecidableEq, Repr

/-- Dispatch on the propagation result of `new_eq`/`new_neq`: success returns
the fresh id, a wipeout at `v` returns the id with the conflict explanation of
`v` computed in the post-propagation state (which is kept). -/
def finishAdd (id : Nat) : PResult → AddRes
  | .ok s2 => .ok id s2
  | .wiped v s2 => .err id (getConflictExplanation s2 v) s2
  | .abort a => .abort a

/-- Common body of `Engine::new_eq` and `Engine::new_neq` (the two Rust
functions are verbatim duplicates except for the kind): allocate
`id = constraints.len()`, insert, propagate from `{id}`; on wipeout return the
id together with the conflict explanation of the wiped variable, keeping the
post-propagation state. -/
def addConstraintK (kind : ConstraintKind) (fuel : Nat) (s : Engine)
    (var1 var2 : Nat) : AddRes :=
  let id := s.constraints.length
  let s1 : Engine := { s with constraints := insertC s.constraints id (var1, var2, kind) }
  finishAdd id (propagate fuel s1 id)

/-- `Engine::new_eq`. -/
def new_eq (fuel : Nat) (s : Engine) (var1 var2 : Nat) : AddRes :=
  addConstraintK .equality fuel s var1 var2

/-- `Engine::new_neq`. -/
def new_neq (fuel : Nat) (s : Engine) (var1 var2 : Nat) : AddRes :=
  addConstraintK .inequality fuel s var1 var2

/-- Result of `retract_constraint`: `logicError v` models the `panic!` branch
taken when the re-propagation reports a domain wipeout at variable `v`. -/
inductive RetractRes where
  | ok : Engine → RetractRes
  | logicError : Nat → RetractRes
  | abort : Abort → RetractRes
deriving DecidableEq, Repr

/-- Clear every suppressor equal to `id` in one domain (step 1 of
`retract_constraint`). -/
def clearMarks (d : List ValueState) (id : Nat) : List ValueState :=
  d.map (fun st => if st.suppressed_by = some id then { st with suppressed_by := none } else st)

/-- Dispatch on the re-propagation result of `retract_constraint`: a wipeout
hits the source's `panic!` branch, modelled as `logicError`. -/
def finishRetract : PResult → RetractRes
  | .ok s2 => .ok s2
  | .wiped v _ => .logicError v
  | .abort a => .abort a

/-- Clear the marks owned by `id` on one variable, silently skipping an
out-of-range index as the source's `if let Some(domain) =
values.get_mut(var)` does. -/
def clearVar (id : Nat) (acc : Engine) (v : Nat) : Engine :=
  match acc.values.get? v with
  | none => acc
  | some d => { acc with values := acc.values.set v (clearMarks d id) }

/-- Clear the marks owned by `id` on the two touched variables (step 1 of
`retract_constraint`, the `for &var in &[var1, var2]` loop). -/
def clearTouched (s : Engine) (id var1 var2 : Nat) : Engine :=
  clearVar id (clearVar id s var1) var2

/-- `Engine::retract_constraint(id)`: remove the registry entry (silent no-op
when absent), clear the marks owned by `id` on the two touched variables, then
re-propagate from the constraints incident on the two variables. -/
def retract_constraint (fuel : Nat) (s : Engine) (id : Nat) : RetractRes :=
  match lookupC s.constraints id with
  | none => .ok s
  | some (var1, var2, _) =>
    let s0 : Engine := { s with constraints := removeC s.constraints id }
    finishRetract (propagateTouching fuel (clearTouched s0 id var1 var2) [var1, var2])

/-- `Engine::add_var(values)`: append a fresh domain, one live slot per value
in the given order, and return its index. -/
def add_var (s : Engine) (vals : List Int) : Nat × Engine :=
  (s.values.length,
   { s with values := s.values ++ [vals.map (fun v => ⟨v, none⟩)] })

/-- `Engine::val(var)`: the live values of `var` in insertion order.  The Rust
function indexes `values[var]` and would panic out of range; the model returns
`none` there. -/
def val (s : Engine) (var : Nat) : Option (List Int) :=
  (s.values.get? var).map activeDom

/-- `Engine::set_listener(var, callback)`: record the registration; the
callback itself is an opaque token. -/
def set_listener (s : Engine) (var tok : Nat) : Engine :=
  { s with listeners := s.listeners ++ [(var, tok)] }

/-- A public call, for reasoning about call sequences. -/
inductive Cmd where
  | addVar : List Int → Cmd
  | addEq : Nat → Nat → Cmd
  | addNeq : Nat → Nat → Cmd
  | retract : Nat → Cmd
  | listen : Nat → Nat → Cmd
deriving DecidableEq, Repr

/-- Run one call, failing (`none`) unless it returns successfully:
`new_eq`/`new_neq` must return `Ok`, `retract_constraint` must neither hit the
wipeout panic nor abort. -/
def runCmdStrict (fuel : Nat) (s : Engine) : Cmd → Option Engine
  | .addVar vals => some (add_var s vals).2
  | .addEq a b =>
    match new_eq fuel s a b with
    | .ok _ s1 => some s1
    | _ => none
  | .addNeq a b =>
    match new_neq fuel s a b with
    | .ok _ s1 => some s1
    | _ => none
  | .retract id =>
    match retract_constraint fuel s id with
    | .ok s1 => some s1
    | _ => none
  | .listen v tok => some (set_listener s v tok)

/-- Run a sequence of calls, all of which must return successfully. -/
def runAllStrict (fuel : Nat) (s : Engine) (cmds : List Cmd) : Option Engine :=
  cmds.foldl (fun acc c => acc.bind (fun s1 => runCmdStrict fuel s1 c)) (some s)

/-- Run one call the way the source's tests drive the engine: an `Err` result
of an add is ignored and execution continues in the post-call state; only a
panic or fuel exhaustion stops the run. -/
def runCmdDrive (fuel : Nat) (s : Engine) : Cmd → Option Engine
  | .addVar vals => some (add_var s vals).2
  | .addEq a b =>
    match new_eq fuel s a b with
    | .ok _ s1 => some s1
    | .err _ _ s1 => some s1
    | .abort _ => none
  | .addNeq a b =>
    match new_neq fuel s a b with
    | .ok _ s1 => some s1
    | .err _ _ s1 => some s1
    | .abort _ => none
  | .retract id =>
    match retract_constraint fuel s id with
    | .ok s1 => some s1
    | _ => none
  | .listen v tok => some (set_listener s v tok)

/-- Run a sequence of calls in driving mode. -/
def runDrive (fuel : Nat) (s : Engine) (cmds : List Cmd) : Option Engine :=
  cmds.foldl (fun acc c => acc.bind (fun s1 => runCmdDrive fuel s1 c)) (some s)

/-! Concrete states used by the counterexamples below. -/

/-- Engine with two variables `[1]`, `[1]` and no constraints. -/
def pairBase : Engine := ⟨[[⟨1, none⟩], [⟨1, none⟩]], [], [], []⟩

/-- `pairBase` after `new_eq(0, 1)` returned `Ok(0)`. -/
def pairWithEq : Engine := ⟨[[⟨1, none⟩], [⟨1, none⟩]], [(0, 0, 1, .equality)], [], []⟩

/-- Two variables with disjoint domains `[1,2]` and `[3,4]`: an equality
between them wipes variable `0`. -/
def disjointPair : Engine :=
  ⟨[[⟨1, none⟩, ⟨2, none⟩], [⟨3, none⟩, ⟨4, none⟩]], [], [], []⟩

/-- The state `new_eq(0, 1)` on `disjointPair` leaves behind when it reports
the wipeout: both slots of variable `0` are suppressed by the new constraint
`0`, which stays in the registry. -/
def disjointWiped : Engine :=
  ⟨[[⟨1, some 0⟩, ⟨2, some 0⟩], [⟨3, none⟩, ⟨4, none⟩]],
   [(0, 0, 1, .equality)], [], []⟩

/-- Two variables `[1,2]`, `[1,2]` with an equality constraint `0` on `(0, 1)`
and an inequality constraint `1` on `(1, 0)`; the suppressor of the four slots
is given by the arguments.  Used to exhibit the non-terminating rotating wave
of the propagation loop. -/
def waveE (m1 m2 m3 m4 : Option Nat) : Engine :=
  ⟨[[⟨1, m1⟩, ⟨2, m2⟩], [⟨1, m3⟩, ⟨2, m4⟩]],
   [(0, 0, 1, .equality), (1, 1, 0, .inequality)], [], []⟩

/-- The call sequence of the retract-wipeout counterexample: four variables,
`eq(0,2)` succeeds, `eq(0,1)` fails with a wipeout (variable `0` is pruned
empty), `eq(2,3)` succeeds again. -/
def failOkCmds : List Cmd :=
  [.addVar [1], .addVar [2], .addVar [1], .addVar [1], .addEq 0 2, .addEq 0 1, .addEq 2 3]

/-- The engine reached by the first six calls of `failOkCmds`. -/
def failOkPre : Engine :=
  ⟨[[⟨1, some 1⟩], [⟨2, none⟩], [⟨1, none⟩], [⟨1, none⟩]],
   [(0, 0, 2, .equality), (1, 0, 1, .equality)], [], []⟩

/-- The engine reached by all of `failOkCmds` (the last call succeeded). -/
def failOkEnd : Engine :=
  ⟨[[⟨1, some 1⟩], [⟨2, none⟩], [⟨1, none⟩], [⟨1, none⟩]],
   [(0, 0, 2, .equality), (1, 0, 1, .equality), (2, 2, 3, .equality)], [], []⟩

/-- The add phase of the retract-restore counterexample: four variables and
four inequality constraints, all of which succeed. -/
def roundAddCmds : List Cmd :=
  [.addVar [1], .addVar [1,2], .addVar [3,2], .addVar [3,1],
   .addNeq 1 2, .addNeq 3 2, .addNeq 1 3, .addNeq 0 1]

/-- The four variables of `roundAddCmds` before any constraint is added. -/
def roundBase : Engine :=
  ⟨[[⟨1, none⟩], [⟨1, none⟩, ⟨2, none⟩], [⟨3, none⟩, ⟨2, none⟩], [⟨3, none⟩, ⟨1, none⟩]],
   [], [], []⟩

/-- The engine reached by `roundAddCmds`. -/
def roundMid : Engine :=
  ⟨[[⟨1, none⟩], [⟨1, some 3⟩, ⟨2, none⟩], [⟨3, none⟩, ⟨2, some 0⟩], [⟨3, some 1⟩, ⟨1, none⟩]],
   [(0, 1, 2, .inequality), (1, 3, 2, .inequality), (2, 1, 3, .inequality), (3, 0, 1, .inequality)],
   [], []⟩

/-- States visited forever by the re-propagation inside
`retract_constraint(3)` from `roundMid`: variables `[1]`, `[1,2]`, `[3,2]`,
`[3,1]` with three inequality constraints and the given slot suppressors. -/
def roundE (m1 m2 m3 m4 m5 m6 : Option Nat) : Engine :=
  ⟨[[⟨1, none⟩], [⟨1, m1⟩, ⟨2, m2⟩], [⟨3, m3⟩, ⟨2, m4⟩], [⟨3, m5⟩, ⟨1, m6⟩]],
   [(0, 1, 2, .inequality), (1, 3, 2, .inequality), (2, 1, 3, .inequality)], [], []⟩

/-- The call sequence of the listener counterexample: a callback is registered
for variable `0` and a successful `new_eq` then prunes variable `0`. -/
def listenCmds : List Cmd :=
  [.addVar [1,2,3], .addVar [2,3,4], .listen 0 0, .addEq 0 1]

/-- The engine reached by `listenCmds`. -/
def listenEnd : Engine :=
  ⟨[[⟨1, some 0⟩, ⟨2, none⟩, ⟨3, none⟩], [⟨2, none⟩, ⟨3, none⟩, ⟨4, some 0⟩]],
   [(0, 0, 1, .equality)], [(0, 0)], []⟩

/-! Specification-side predicates used to state and prove the invariants. -/

/-- Live values of variable `v` (`[]` for an out-of-range index). -/
def liveAt (s : Engine) (v : Nat) : List Int := activeDom (s.values.getD v [])

/-- Claim-side support relation (spec §4.3): under equality the value must
occur among the active values of the partner; under inequality the partner
must contain a different value. -/
def supportSpec : ConstraintKind → Int → List Int → Prop
  | .equality, v, activeB => v ∈ activeB
  | .inequality, v, activeB => ∃ w ∈ activeB, w ≠ v

instance (k : ConstraintKind) (v : Int) (activeB : List Int) :
    Decidable (supportSpec k v activeB) := by
  cases k <;> simp only [supportSpec] <;> infer_instance

/-- Claim-side per-slot table of spec §4.3: the slot keeps its value; a
supported slot has its suppressor cleared iff the suppressor equals `cid`; an
unsupported slot gets suppressor `cid` iff it was absent; a slot suppressed by
another constraint is untouched in all cases. -/
def reviseSlotContract (cid : Nat) (activeB : List Int) (k : ConstraintKind)
    (st st1 : ValueState) : Prop :=
  st1.value = st.value ∧
  st1.suppressed_by =
    (if supportSpec k st.value activeB then
      (if st.suppressed_by = some cid then none else st.suppressed_by)
    else
      (if st.suppressed_by = none then some cid else st.suppressed_by))

/-- Arc soundness: every live slot of `a` is supported against the live
values of `b` under `k`. -/
def arcSound (s : Engine) (a b : Nat) (k : ConstraintKind) : Prop :=
  ∀ st ∈ s.values.getD a [], st.suppressed_by = none →
    hasSupport k st.value (liveAt s b) = true

/-- Both arcs of a registry entry are sound. -/
def entrySound (s : Engine) (e : Nat × Nat × Nat × ConstraintKind) : Prop :=
  arcSound s e.2.1 e.2.2.1 e.2.2.2 ∧ arcSound s e.2.2.1 e.2.1 e.2.2.2

/-- Every registry entry whose id is not in `qs` is sound (the worklist-loop
invariant: only queued constraints may have unsound arcs). -/
def soundExcept (s : Engine) (qs : List Nat) : Prop :=
  ∀ e ∈ s.constraints, e.1 ∉ qs → entrySound s e

/-- Both variables of every registry entry have a non-empty active domain. -/
def cvarsLive (s : Engine) : Prop :=
  ∀ e ∈ s.constraints, liveAt s e.2.1 ≠ [] ∧ liveAt s e.2.2.1 ≠ []

/-- Every registry entry relates two distinct variables (the spec's data
model, §3, stipulates `a ≠ b`). -/
def noSelf (s : Engine) : Prop := ∀ e ∈ s.constraints, e.2.1 ≠ e.2.2.1

/-- Every registry entry references variables that exist. -/
def inRange (s : Engine) : Prop :=
  ∀ e ∈ s.constraints, e.2.1 < s.values.length ∧ e.2.2.1 < s.values.length

/-- The registry keys. -/
def keysOf (cs : List (Nat × Nat × Nat × ConstraintKind)) : List Nat :=
  cs.map (fun e => e.1)

/-- The registry has no duplicate keys. -/
def nodupKeys (cs : List (Nat × Nat × Nat × ConstraintKind)) : Prop :=
  (keysOf cs).Nodup

/-- The invariant of states reached by successful public calls whose
constraints relate distinct variables. -/
def goodPack (s : Engine) : Prop :=
  soundExcept s [] ∧ cvarsLive s ∧ noSelf s ∧ nodupKeys s.constraints

/-- Domain refinement: same length, same values, and every slot live in the
reference is live in the refined domain. -/
def domSub (dR d : List ValueState) : Prop :=
  dR.length = d.length ∧
  ∀ i stR st, dR.get? i = some stR → d.get? i = some st →
    st.value = stR.value ∧ (stR.suppressed_by = none → st.suppressed_by = none)

/-- Engine refinement: `sref`'s live labelling is contained in `s`'s, slot for
slot. -/
def engSub (sref s : Engine) : Prop :=
  sref.values.length = s.values.length ∧
  ∀ v, domSub (sref.values.getD v []) (s.values.getD v [])

/-- The reference labelling `sref` is arc-consistent and non-empty for every
entry of `cs`: this is what makes a propagation over `cs` unable to wipe any
domain of a refinement of `sref`. -/
def refOk (sref : Engine) (cs : List (Nat × Nat × Nat × ConstraintKind)) : Prop :=
  ∀ e ∈ cs, entrySound sref e ∧ liveAt sref e.2.1 ≠ [] ∧ liveAt sref e.2.2.1 ≠ []

/-- Every variable of the engine has a non-empty active domain. -/
def allVarsLive (s : Engine) : Prop :=
  ∀ v, v < s.values.length → liveAt s v ≠ []

/-- Attribution soundness (spec I1): every suppressor names a registered
constraint one of whose variables is the suppressed slot's variable. -/
def attrSound (s : Engine) : Prop :=
  ∀ v d, s.values.get? v = some d → ∀ st ∈ d, ∀ c, st.suppressed_by = some c →
    ∃ t, lookupC s.constraints c = some t ∧ (v = t.1 ∨ v = t.2.1)

/-- The per-variable lists of slot values, forgetting suppressors. -/
def valuesShape (s : Engine) : List (List Int) :=
  s.values.map (fun d => d.map (fun st => st.value))

/-- Every slot of every variable is live. -/
def allLive (s : Engine) : Prop :=
  ∀ d ∈ s.values, ∀ st ∈ d, st.suppressed_by = none

/-- An add command relates two distinct variables (vacuous for the other
commands). -/
def cmdNoSelf : Cmd → Prop
  | Cmd.addEq a b => a ≠ b
  | Cmd.addNeq a b => a ≠ b
  | _ => True

instance (c : Cmd) : Decidable (cmdNoSelf c) := by
  cases c <;> simp only [cmdNoSelf] <;> infer_instance

/-- Every add command of the list relates two distinct variables. -/
def cmdsNoSelf (cmds : List Cmd) : Prop := ∀ c ∈ cmds, cmdNoSelf c

/-- The command is an `add_equality` or `add_inequality` call. -/
def cmdIsAdd : Cmd → Prop
  | Cmd.addEq _ _ => True
  | Cmd.addNeq _ _ => True
  | _ => False

instance (c : Cmd) : Decidable (cmdIsAdd c) := by
  cases c <;> simp only [cmdIsAdd] <;> infer_instance

/-! Theorems. -/

/-! Basic lemmas about lists, domains and `reviseSlot`. -/

theorem getD_of_get? {α : Type} {l : List α} {n : Nat} {x d : α}
    (h : l.get? n = some x) : l.getD n d = x := by
  rw [List.getD_eq_getElem?_getD, ← List.get?_eq_getElem?, h]
  rfl

theorem list_set_self {α : Type} {l : List α} {n : Nat} {x : α}
    (h : l.get? n = some x) : l.set n x = l := by
  induction l generalizing n with
  | nil => cases h
  | cons a l ih =>
    cases n with
    | zero =>
      simp only [List.get?] at h
      cases h
      rfl
    | succ n =>
      simp only [List.get?] at h
      simp [List.set, ih h]

theorem mem_activeDom {d : List ValueState} {x : Int} :
    x ∈ activeDom d ↔ ∃ st ∈ d, st.suppressed_by = none ∧ st.value = x := by
  simp [activeDom, List.mem_map, List.mem_filter, Option.isNone_iff_eq_none,
    and_assoc]

theorem activeDom_fresh (vals : List Int) :
    activeDom (vals.map (fun v => ⟨v, none⟩)) = vals := by
  induction vals with
  | nil => rfl
  | cons v vs ih => simpa [activeDom] using ih

theorem hasSupport_iff_spec (k : ConstraintKind) (v : Int) (activeB : List Int) :
    hasSupport k v activeB = true ↔ supportSpec k v activeB := by
  cases k with
  | equality => simp [hasSupport, supportSpec, List.contains, List.elem_iff]
  | inequality =>
    simp [hasSupport, supportSpec, List.any_eq_true, bne_iff_ne]

theorem support_mono {k : ConstraintKind} {v : Int} {activeB activeB1 : List Int}
    (hsub : ∀ x, x ∈ activeB → x ∈ activeB1)
    (h : hasSupport k v activeB = true) : hasSupport k v activeB1 = true := by
  rw [hasSupport_iff_spec] at h ⊢
  cases k with
  | equality => exact hsub _ h
  | inequality =>
    obtain ⟨w, hw, hne⟩ := h
    exact ⟨w, hsub _ hw, hne⟩

theorem reviseSlot_spec (c : Nat) (activeB : List Int) (k : ConstraintKind)
    (st : ValueState) :
    reviseSlot c activeB k st =
      ⟨st.value,
       if hasSupport k st.value activeB then
         (if st.suppressed_by = some c then none else st.suppressed_by)
       else
         (if st.suppressed_by = none then some c else st.suppressed_by)⟩ := by
  unfold reviseSlot
  split
  · split <;> rename_i h1 h2 <;> simp [h1, h2]
  · split <;> rename_i h1 h2 <;> simp [h1, h2]

theorem reviseSlot_value (c : Nat) (activeB : List Int) (k : ConstraintKind)
    (st : ValueState) : (reviseSlot c activeB k st).value = st.value := by
  rw [reviseSlot_spec]

theorem reviseSlot_of_live_supported {c : Nat} {activeB : List Int}
    {k : ConstraintKind} {st : ValueState} (hl : st.suppressed_by = none)
    (hs : hasSupport k st.value activeB = true) :
    reviseSlot c activeB k st = st := by
  obtain ⟨v, sb⟩ := st
  simp only at hl
  subst hl
  rw [reviseSlot_spec]
  simp [hs]

theorem reviseSlot_live_of {c : Nat} {activeB : List Int} {k : ConstraintKind}
    {st : ValueState} (h : (reviseSlot c activeB k st).suppressed_by = none) :
    hasSupport k st.value activeB = true := by
  rw [reviseSlot_spec] at h
  simp only at h
  by_contra hs
  rw [if_neg hs] at h
  split at h <;> simp_all

theorem revise_structure (s : Engine) (a b : Nat) (k : ConstraintKind) (c : Nat)
    {dA dB : List ValueState}
    (ha : s.values.get? a = some dA) (hb : s.values.get? b = some dB) :
    revise s a b k c =
      (if (dA.map (reviseSlot c (activeDom dB) k)).all
            (fun st => st.suppressed_by.isSome) then
        ReviseRes.wiped a
          { s with values := s.values.set a (dA.map (reviseSlot c (activeDom dB) k)) }
      else
        ReviseRes.ok
          { s with values := s.values.set a (dA.map (reviseSlot c (activeDom dB) k)) }
          (decide ((dA.map (reviseSlot c (activeDom dB) k)) ≠ dA))) := by
  unfold revise
  rw [hb, ha]

theorem revise_not_indexErr {s : Engine} {a b : Nat} {k : ConstraintKind}
    {c : Nat} (h : revise s a b k c ≠ ReviseRes.indexErr) :
    ∃ dA dB, s.values.get? a = some dA ∧ s.values.get? b = some dB := by
  cases ha : s.values.get? a with
  | none =>
    exfalso; apply h
    cases hb : s.values.get? b with
    | none => unfold revise; rw [hb]
    | some dB => unfold revise; rw [hb, ha]
  | some dA =>
    cases hb : s.values.get? b with
    | none =>
      exfalso; apply h; unfold revise; rw [hb]
    | some dB => exact ⟨dA, dB, rfl, rfl⟩

theorem revise_ok_spec {s s1 : Engine} {a b : Nat} {k : ConstraintKind}
    {c : Nat} {ch : Bool} (h : revise s a b k c = ReviseRes.ok s1 ch) :
    ∃ dA dB, s.values.get? a = some dA ∧ s.values.get? b = some dB ∧
      s1 = { s with values := s.values.set a (dA.map (reviseSlot c (activeDom dB) k)) } ∧
      ch = decide ((dA.map (reviseSlot c (activeDom dB) k)) ≠ dA) ∧
      ¬ (dA.map (reviseSlot c (activeDom dB) k)).all (fun st => st.suppressed_by.isSome) := by
  obtain ⟨dA, dB, ha, hb⟩ := revise_not_indexErr (by rw [h]; exact fun hc => by cases hc)
  have hs := revise_structure s a b k c ha hb
  rw [h] at hs
  by_cases hall : (dA.map (reviseSlot c (activeDom dB) k)).all
      (fun st => st.suppressed_by.isSome)
  · rw [if_pos hall] at hs
    cases hs
  · rw [if_neg hall] at hs
    injection hs with h1 h2
    exact ⟨dA, dB, ha, hb, h1, h2, hall⟩

theorem revise_wiped_spec {s s1 : Engine} {a b : Nat} {k : ConstraintKind}
    {c v : Nat} (h : revise s a b k c = ReviseRes.wiped v s1) :
    v = a ∧ ∃ dA dB, s.values.get? a = some dA ∧ s.values.get? b = some dB ∧
      s1 = { s with values := s.values.set a (dA.map (reviseSlot c (activeDom dB) k)) } ∧
      (dA.map (reviseSlot c (activeDom dB) k)).all (fun st => st.suppressed_by.isSome) := by
  obtain ⟨dA, dB, ha, hb⟩ := revise_not_indexErr (by rw [h]; exact fun hc => by cases hc)
  have hs := revise_structure s a b k c ha hb
  rw [h] at hs
  by_cases hall : (dA.map (reviseSlot c (activeDom dB) k)).all
      (fun st => st.suppressed_by.isSome)
  · rw [if_pos hall] at hs
    injection hs with h1 h2
    exact ⟨h1, dA, dB, ha, hb, h2, hall⟩
  · rw [if_neg hall] at hs
    cases hs

theorem get?_set_other {α : Type} {l : List α} {n m : Nat} (h : n ≠ m) (y : α) :
    (l.set n y).get? m = l.get? m := by
  rw [List.get?_eq_getElem?, List.get?_eq_getElem?, List.getElem?_set_ne h]

theorem get?_set_here {α : Type} {l : List α} {n : Nat} {x : α}
    (h : l.get? n = some x) (y : α) : (l.set n y).get? n = some y := by
  obtain ⟨hn, -⟩ := List.get?_eq_some.mp h
  rw [List.get?_eq_getElem?, List.getElem?_set_self hn]

theorem lookupC_mem {cs : List (Nat × Nat × Nat × ConstraintKind)} {id : Nat}
    {t : Nat × Nat × ConstraintKind} (h : lookupC cs id = some t) :
    (id, t) ∈ cs := by
  unfold lookupC at h
  cases hf : cs.find? (fun e => e.1 = id) with
  | none => rw [hf] at h; cases h
  | some e =>
    rw [hf] at h
    injection h with h1
    have hm := List.mem_of_find?_eq_some hf
    have hp := List.find?_some hf
    have hid : e.1 = id := by simpa using hp
    subst h1
    rw [← hid]
    simpa using hm

theorem revise_ok_fields {s s1 : Engine} {a b : Nat} {k : ConstraintKind}
    {c : Nat} {ch : Bool} (h : revise s a b k c = ReviseRes.ok s1 ch) :
    s1.constraints = s.constraints ∧ s1.listeners = s.listeners ∧
    s1.invocations = s.invocations ∧ s1.values.length = s.values.length := by
  obtain ⟨dA, dB, ha, hb, hseq, -, -⟩ := revise_ok_spec h
  subst hseq
  exact ⟨rfl, rfl, rfl, by simp⟩

theorem revise_wiped_fields {s s1 : Engine} {a b : Nat} {k : ConstraintKind}
    {c v : Nat} (h : revise s a b k c = ReviseRes.wiped v s1) :
    s1.constraints = s.constraints ∧ s1.listeners = s.listeners ∧
    s1.invocations = s.invocations ∧ s1.values.length = s.values.length := by
  obtain ⟨-, dA, dB, ha, hb, hseq, -⟩ := revise_wiped_spec h
  subst hseq
  exact ⟨rfl, rfl, rfl, by simp⟩

theorem revise_ok_get {s s1 : Engine} {a b : Nat} {k : ConstraintKind}
    {c : Nat} {ch : Bool} (h : revise s a b k c = ReviseRes.ok s1 ch) :
    (∀ v, v ≠ a → s1.values.get? v = s.values.get? v) ∧
    ∃ dA dB, s.values.get? a = some dA ∧ s.values.get? b = some dB ∧
      s1.values.get? a = some (dA.map (reviseSlot c (activeDom dB) k)) := by
  obtain ⟨dA, dB, ha, hb, hseq, -, -⟩ := revise_ok_spec h
  subst hseq
  refine ⟨fun v hv => get?_set_other (fun hh => hv hh.symm) _, dA, dB, ha, hb, ?_⟩
  exact get?_set_here ha _

theorem revise_ok_live {s s1 : Engine} {a b : Nat} {k : ConstraintKind}
    {c : Nat} {ch : Bool} (h : revise s a b k c = ReviseRes.ok s1 ch) :
    liveAt s1 a ≠ [] := by
  obtain ⟨dA, dB, ha, hb, hseq, -, hall⟩ := revise_ok_spec h
  rw [List.all_eq_true] at hall
  push_neg at hall
  obtain ⟨st, hmem, hns⟩ := hall
  have hnone : st.suppressed_by = none := by
    cases hsb : st.suppressed_by with
    | none => rfl
    | some c1 => rw [hsb] at hns; simp at hns
  subst hseq
  unfold liveAt
  rw [getD_of_get? (get?_set_here ha _)]
  intro hemp
  have hin : st.value ∈ activeDom (dA.map (reviseSlot c (activeDom dB) k)) :=
    mem_activeDom.mpr ⟨st, hmem, hnone, rfl⟩
  rw [hemp] at hin
  cases hin

theorem stepConstraint_next_spec {s s2 : Engine} {c : Nat} {ch : Bool}
    {v1 v2 : Nat} (h : stepConstraint s c = StepRes.next s2 ch v1 v2) :
    ∃ k sA ch1 ch2, lookupC s.constraints c = some (v1, v2, k) ∧
      revise s v1 v2 k c = ReviseRes.ok sA ch1 ∧
      revise sA v2 v1 k c = ReviseRes.ok s2 ch2 ∧ ch = (ch1 || ch2) := by
  unfold stepConstraint at h
  split at h
  · cases h
  · rename_i a b k hl
    split at h
    · cases h
    · cases h
    · rename_i sA ch1 hr1
      split at h
      · cases h
      · cases h
      · rename_i s2x ch2 hr2
        injection h with h1 h2 h3 h4
        subst h1; subst h2; subst h3; subst h4
        exact ⟨k, sA, ch1, ch2, hl, hr1, hr2, rfl⟩

theorem stepConstraint_wiped_spec {s s1 : Engine} {c v : Nat}
    (h : stepConstraint s c = StepRes.term (PResult.wiped v s1)) :
    ∃ v1 v2 k, lookupC s.constraints c = some (v1, v2, k) ∧
      (revise s v1 v2 k c = ReviseRes.wiped v s1 ∨
       ∃ sA ch1, revise s v1 v2 k c = ReviseRes.ok sA ch1 ∧
         revise sA v2 v1 k c = ReviseRes.wiped v s1) := by
  unfold stepConstraint at h
  split at h
  · cases h
  · rename_i a b k hl
    split at h
    · cases h
    · rename_i vx s1x hr1
      injection h with h1
      injection h1 with h2 h3
      subst h2; subst h3
      exact ⟨a, b, k, hl, Or.inl hr1⟩
    · rename_i sA ch1 hr1
      split at h
      · cases h
      · rename_i vx s2x hr2
        injection h with h1
        injection h1 with h2 h3
        subst h2; subst h3
        exact ⟨a, b, k, hl, Or.inr ⟨sA, ch1, hr1, hr2⟩⟩
      · cases h

theorem stepConstraint_missing_spec {s : Engine} {c c1 : Nat}
    (h : stepConstraint s c = StepRes.term (PResult.abort (Abort.missingKey c1))) :
    lookupC s.constraints c = none := by
  unfold stepConstraint at h
  split at h
  · rename_i hl; exact hl
  · rename_i a b k hl
    split at h
    · cases h
    · cases h
    · split at h
      · cases h
      · cases h
      · cases h

theorem stepConstraint_next_fields {s s2 : Engine} {c : Nat} {ch : Bool}
    {v1 v2 : Nat} (h : stepConstraint s c = StepRes.next s2 ch v1 v2) :
    s2.constraints = s.constraints ∧ s2.listeners = s.listeners ∧
    s2.invocations = s.invocations ∧ s2.values.length = s.values.length := by
  obtain ⟨k, sA, ch1, ch2, -, hr1, hr2, -⟩ := stepConstraint_next_spec h
  obtain ⟨e1, e2, e3, e4⟩ := revise_ok_fields hr1
  obtain ⟨f1, f2, f3, f4⟩ := revise_ok_fields hr2
  exact ⟨f1.trans e1, f2.trans e2, f3.trans e3, f4.trans e4⟩

theorem getD_congr {α : Type} {l l1 : List α} {n : Nat} {d : α}
    (h : l1.get? n = l.get? n) : l1.getD n d = l.getD n d := by
  rw [List.getD_eq_getElem?_getD, List.getD_eq_getElem?_getD,
    ← List.get?_eq_getElem?, ← List.get?_eq_getElem?, h]

theorem liveAt_eq_of_get {s s1 : Engine} {v : Nat}
    (h : s1.values.get? v = s.values.get? v) : liveAt s1 v = liveAt s v := by
  unfold liveAt
  rw [getD_congr h]

theorem stepConstraint_term_not_ok {s : Engine} {c : Nat} {r : PResult}
    (h : stepConstraint s c = StepRes.term r) : ∀ s1, r ≠ PResult.ok s1 := by
  unfold stepConstraint at h
  split at h
  · cases h; intro s1 hc; cases hc
  · split at h
    · cases h; intro s1 hc; cases hc
    · cases h; intro s1 hc; cases hc
    · split at h
      · cases h; intro s1 hc; cases hc
      · cases h; intro s1 hc; cases hc
      · cases h

theorem stepConstraint_next_live {s s2 : Engine} {c : Nat} {ch : Bool}
    {v1 v2 : Nat} (h : stepConstraint s c = StepRes.next s2 ch v1 v2) :
    (∀ v, liveAt s v ≠ [] → liveAt s2 v ≠ []) ∧
    liveAt s2 v1 ≠ [] ∧ liveAt s2 v2 ≠ [] := by
  obtain ⟨k, sA, ch1, ch2, -, hr1, hr2, -⟩ := stepConstraint_next_spec h
  have hliveA := revise_ok_live hr1
  have hlive2 := revise_ok_live hr2
  have hgA := (revise_ok_get hr1).1
  have hg2 := (revise_ok_get hr2).1
  have hpres : ∀ v, liveAt s v ≠ [] → liveAt s2 v ≠ [] := by
    intro v hv
    by_cases h2 : v = v2
    · subst h2; exact hlive2
    · rw [liveAt_eq_of_get (hg2 v h2)]
      by_cases h1 : v = v1
      · subst h1; exact hliveA
      · rw [liveAt_eq_of_get (hgA v h1)]; exact hv
  refine ⟨hpres, ?_, hlive2⟩
  by_cases h2 : v1 = v2
  · subst h2; exact hlive2
  · rw [liveAt_eq_of_get (hg2 v1 h2)]; exact hliveA

theorem propagateLoop_ok_fields :
    ∀ (fuel : Nat) {s : Engine} {q inq : List Nat} {s1 : Engine},
    propagateLoop fuel s q inq = PResult.ok s1 →
    s1.constraints = s.constraints ∧ s1.listeners = s.listeners ∧
    s1.invocations = s.invocations ∧ s1.values.length = s.values.length := by
  intro fuel
  induction fuel with
  | zero => intro s q inq s1 h; cases h
  | succ n ih =>
    intro s q inq s1 h
    cases q with
    | nil =>
      simp only [propagateLoop] at h
      injection h with h1
      subst h1
      exact ⟨rfl, rfl, rfl, rfl⟩
    | cons c q1 =>
      simp only [propagateLoop] at h
      split at h
      · rename_i r hst
        exact absurd h (stepConstraint_term_not_ok hst s1)
      · rename_i s2 changed v1 v2 hst
        have hf := stepConstraint_next_fields hst
        split at h <;>
          · obtain ⟨e1, e2, e3, e4⟩ := ih h
            exact ⟨e1.trans hf.1, e2.trans hf.2.1, e3.trans hf.2.2.1,
              e4.trans hf.2.2.2⟩

theorem stepConstraint_wiped_fields {s s1 : Engine} {c v : Nat}
    (h : stepConstraint s c = StepRes.term (PResult.wiped v s1)) :
    s1.constraints = s.constraints ∧ s1.listeners = s.listeners ∧
    s1.invocations = s.invocations ∧ s1.values.length = s.values.length := by
  obtain ⟨v1, v2, k, -, hcase⟩ := stepConstraint_wiped_spec h
  cases hcase with
  | inl hw => exact revise_wiped_fields hw
  | inr hr =>
    obtain ⟨sA, ch1, hok, hw⟩ := hr
    obtain ⟨e1, e2, e3, e4⟩ := revise_ok_fields hok
    obtain ⟨f1, f2, f3, f4⟩ := revise_wiped_fields hw
    exact ⟨f1.trans e1, f2.trans e2, f3.trans e3, f4.trans e4⟩

theorem propagateLoop_wiped_fields :
    ∀ (fuel : Nat) {s : Engine} {q inq : List Nat} {v : Nat} {s1 : Engine},
    propagateLoop fuel s q inq = PResult.wiped v s1 →
    s1.constraints = s.constraints ∧ s1.listeners = s.listeners ∧
    s1.invocations = s.invocations ∧ s1.values.length = s.values.length := by
  intro fuel
  induction fuel with
  | zero => intro s q inq v s1 h; cases h
  | succ n ih =>
    intro s q inq v s1 h
    cases q with
    | nil => simp only [propagateLoop] at h; cases h
    | cons c q1 =>
      simp only [propagateLoop] at h
      split at h
      · rename_i r hst
        subst h
        exact stepConstraint_wiped_fields hst
      · rename_i s2 changed v1 v2 hst
        have hf := stepConstraint_next_fields hst
        split at h <;>
          · obtain ⟨e1, e2, e3, e4⟩ := ih h
            exact ⟨e1.trans hf.1, e2.trans hf.2.1, e3.trans hf.2.2.1,
              e4.trans hf.2.2.2⟩

theorem propagateLoop_ok_live :
    ∀ (fuel : Nat) {s : Engine} {q inq : List Nat} {s1 : Engine},
    propagateLoop fuel s q inq = PResult.ok s1 →
    ∀ v, liveAt s v ≠ [] → liveAt s1 v ≠ [] := by
  intro fuel
  induction fuel with
  | zero => intro s q inq s1 h; cases h
  | succ n ih =>
    intro s q inq s1 h
    cases q with
    | nil =>
      simp only [propagateLoop] at h
      injection h with h1
      subst h1
      exact fun v hv => hv
    | cons c q1 =>
      simp only [propagateLoop] at h
      split at h
      · rename_i r hst
        exact absurd h (stepConstraint_term_not_ok hst s1)
      · rename_i s2 changed v1 v2 hst
        have hl := (stepConstraint_next_live hst).1
        split at h <;> exact fun v hv => ih h v (hl v hv)

theorem liveAt_sub {sref s : Engine} (hsub : engSub sref s) (v : Nat) :
    ∀ x, x ∈ liveAt sref v → x ∈ liveAt s v := by
  intro x hx
  obtain ⟨stR, hmem, hnone, hval⟩ := mem_activeDom.mp hx
  obtain ⟨i, hget⟩ := List.get?_of_mem hmem
  obtain ⟨hlen, hdom⟩ := hsub
  obtain ⟨hlen2, hslot⟩ := hdom v
  obtain ⟨hi, -⟩ := List.get?_eq_some.mp hget
  have hi2 : i < (s.values.getD v []).length := hlen2 ▸ hi
  have hget2 : (s.values.getD v []).get? i =
      some ((s.values.getD v []).get ⟨i, hi2⟩) := List.get?_eq_get hi2
  obtain ⟨hveq, hlive⟩ := hslot i stR _ hget hget2
  exact mem_activeDom.mpr
    ⟨_, List.get?_mem hget2, hlive hnone, hveq.trans hval⟩

theorem revise_sub_no_wipe {sref s : Engine} {a b : Nat} {k : ConstraintKind}
    {c : Nat} (hsub : engSub sref s) (harc : arcSound sref a b k)
    (hne : liveAt sref a ≠ []) :
    (∀ v s1, revise s a b k c ≠ ReviseRes.wiped v s1) ∧
    (∀ s1 ch, revise s a b k c = ReviseRes.ok s1 ch → engSub sref s1) := by
  cases ha : s.values.get? a with
  | none =>
    constructor
    · intro v s1 hw
      obtain ⟨-, dA, dB, ha2, -⟩ := revise_wiped_spec hw
      rw [ha] at ha2; cases ha2
    · intro s1 ch hok
      obtain ⟨dA, dB, ha2, -⟩ := revise_ok_spec hok
      rw [ha] at ha2; cases ha2
  | some dA =>
    cases hb : s.values.get? b with
    | none =>
      constructor
      · intro v s1 hw
        obtain ⟨-, dA1, dB1, -, hb2, -⟩ := revise_wiped_spec hw
        rw [hb] at hb2; cases hb2
      · intro s1 ch hok
        obtain ⟨dA1, dB1, -, hb2, -⟩ := revise_ok_spec hok
        rw [hb] at hb2; cases hb2
    | some dB =>
      -- preserved-slot fact: certified-live slots are untouched and live
      have hkey : ∀ i stR st, (sref.values.getD a []).get? i = some stR →
          dA.get? i = some st → stR.suppressed_by = none →
          reviseSlot c (activeDom dB) k st = st ∧ st.suppressed_by = none := by
        intro i stR st hgR hg hnone
        have hgd : s.values.getD a [] = dA := getD_of_get? ha
        obtain ⟨hveq, hlive⟩ := ((hsub.2 a).2) i stR st hgR (by rw [hgd]; exact hg)
        have hsupR := harc stR (List.get?_mem hgR) hnone
        have hsupR2 : hasSupport k st.value (liveAt sref b) = true := by
          rw [hveq]; exact hsupR
        have hsup : hasSupport k st.value (activeDom dB) = true := by
          have hmono := support_mono (liveAt_sub hsub b) hsupR2
          have hlb : liveAt s b = activeDom dB := by
            unfold liveAt; rw [getD_of_get? hb]
          rw [← hlb]
          exact hmono
        exact ⟨reviseSlot_of_live_supported (hlive hnone) hsup, hlive hnone⟩
      have hnotall : ¬ (dA.map (reviseSlot c (activeDom dB) k)).all
          (fun st => st.suppressed_by.isSome) := by
        intro hall
        rw [List.all_eq_true] at hall
        obtain ⟨x, hxmem⟩ := List.exists_mem_of_ne_nil _ hne
        obtain ⟨stR, hmemR, hnoneR, -⟩ := mem_activeDom.mp hxmem
        obtain ⟨i, hgR⟩ := List.get?_of_mem hmemR
        obtain ⟨hi, -⟩ := List.get?_eq_some.mp hgR
        have hgd : s.values.getD a [] = dA := getD_of_get? ha
        have hi2 : i < dA.length := by
          have := (hsub.2 a).1
          rw [hgd] at this
          exact this ▸ hi
        have hg : dA.get? i = some (dA.get ⟨i, hi2⟩) := List.get?_eq_get hi2
        obtain ⟨hfix, hlive⟩ := hkey i stR _ hgR hg hnoneR
        have hmem1 : dA.get ⟨i, hi2⟩ ∈ dA.map (reviseSlot c (activeDom dB) k) := by
          have : (dA.map (reviseSlot c (activeDom dB) k)).get? i =
              some (reviseSlot c (activeDom dB) k (dA.get ⟨i, hi2⟩)) := by
            rw [List.get?_map, hg]; rfl
          rw [hfix] at this
          exact List.get?_mem this
        have := hall _ hmem1
        rw [hlive] at this
        cases this
      constructor
      · intro v s1 hw
        obtain ⟨-, dA1, dB1, ha2, hb2, -, hall⟩ := revise_wiped_spec hw
        rw [ha] at ha2; injection ha2 with ha2
        rw [hb] at hb2; injection hb2 with hb2
        subst ha2; subst hb2
        exact hnotall hall
      · intro s1 ch hok
        obtain ⟨dA1, dB1, ha2, hb2, hseq, -, -⟩ := revise_ok_spec hok
        rw [ha] at ha2; injection ha2 with ha2
        rw [hb] at hb2; injection hb2 with hb2
        subst ha2; subst hb2; subst hseq
        refine ⟨by simpa using hsub.1, fun v => ?_⟩
        by_cases hva : v = a
        · rw [hva]
          constructor
          · have : (s.values.set a (dA.map (reviseSlot c (activeDom dB) k))).getD a [] =
                dA.map (reviseSlot c (activeDom dB) k) :=
              getD_of_get? (get?_set_here ha _)
            rw [this, List.length_map]
            have hgd : s.values.getD a [] = dA := getD_of_get? ha
            have := (hsub.2 a).1
            rw [hgd] at this
            exact this
          · intro i stR st hgR hgm
            have hrw : ({ s with values := s.values.set a (dA.map (reviseSlot c (activeDom dB) k))} : Engine).values.getD a [] =
                dA.map (reviseSlot c (activeDom dB) k) :=
              getD_of_get? (get?_set_here ha _)
            rw [hrw] at hgm
            rw [List.get?_map] at hgm
            cases hg : dA.get? i with
            | none => rw [hg] at hgm; cases hgm
            | some st0 =>
              rw [hg] at hgm
              injection hgm with hgm
              constructor
              · rw [← hgm, reviseSlot_value]
                have hgd : s.values.getD a [] = dA := getD_of_get? ha
                exact ((hsub.2 a).2 i stR st0 hgR (by rw [hgd]; exact hg)).1
              · intro hnone
                obtain ⟨hfix, hlive⟩ := hkey i stR st0 hgR hg hnone
                rw [← hgm, hfix]
                exact hlive
        · have hget : ({ s with values := s.values.set a (dA.map (reviseSlot c (activeDom dB) k))} : Engine).values.get? v = s.values.get? v :=
            get?_set_other (fun hh => hva hh.symm) _
          have : ({ s with values := s.values.set a (dA.map (reviseSlot c (activeDom dB) k))} : Engine).values.getD v [] = s.values.getD v [] :=
            getD_congr hget
          rw [this]
          exact hsub.2 v

theorem stepConstraint_sub_no_wipe {sref s : Engine} {c : Nat}
    (hsub : engSub sref s) (href : refOk sref s.constraints) :
    (∀ v s1, stepConstraint s c ≠ StepRes.term (PResult.wiped v s1)) ∧
    (∀ s2 ch v1 v2, stepConstraint s c = StepRes.next s2 ch v1 v2 →
      engSub sref s2) := by
  constructor
  · intro v s1 hw
    obtain ⟨v1, v2, k, hl, hcase⟩ := stepConstraint_wiped_spec hw
    have hmem := lookupC_mem hl
    obtain ⟨⟨harc1, harc2⟩, hne1, hne2⟩ := href _ hmem
    cases hcase with
    | inl h1 => exact (revise_sub_no_wipe hsub harc1 hne1).1 v s1 h1
    | inr h2 =>
      obtain ⟨sA, ch1, hok, hwp⟩ := h2
      have hsubA := (revise_sub_no_wipe hsub harc1 hne1).2 sA ch1 hok
      exact (revise_sub_no_wipe hsubA harc2 hne2).1 v s1 hwp
  · intro s2 ch v1 v2 hn
    obtain ⟨k, sA, ch1, ch2, hl, hr1, hr2, -⟩ := stepConstraint_next_spec hn
    have hmem := lookupC_mem hl
    obtain ⟨⟨harc1, harc2⟩, hne1, hne2⟩ := href _ hmem
    have hsubA := (revise_sub_no_wipe hsub harc1 hne1).2 sA ch1 hr1
    exact (revise_sub_no_wipe hsubA harc2 hne2).2 s2 ch2 hr2

theorem propagateLoop_no_wipe {sref : Engine} :
    ∀ (fuel : Nat) {s : Engine} {q inq : List Nat},
    engSub sref s → refOk sref s.constraints →
    ∀ v s1, propagateLoop fuel s q inq ≠ PResult.wiped v s1 := by
  intro fuel
  induction fuel with
  | zero => intro s q inq _ _ v s1 h; cases h
  | succ n ih =>
    intro s q inq hsub href v s1 h
    cases q with
    | nil => simp only [propagateLoop] at h; cases h
    | cons c q1 =>
      simp only [propagateLoop] at h
      split at h
      · rename_i r hst
        subst h
        exact (stepConstraint_sub_no_wipe hsub href).1 v s1 hst
      · rename_i s2 changed v1 v2 hst
        have hsub2 := (stepConstraint_sub_no_wipe hsub href).2 s2 changed v1 v2 hst
        have hcs : s2.constraints = s.constraints :=
          (stepConstraint_next_fields hst).1
        have href2 : refOk sref s2.constraints := by rw [hcs]; exact href
        split at h <;> exact ih hsub2 href2 v s1 h

theorem contains_iff {l : List Nat} {x : Nat} : l.contains x = true ↔ x ∈ l := by
  simp [List.contains, List.elem_iff]

theorem enqueueIncident_q_mono {cs : List (Nat × Nat × Nat × ConstraintKind)}
    {c v : Nat} : ∀ {q inq : List Nat} {x : Nat}, x ∈ q →
    x ∈ (enqueueIncident cs c v (q, inq)).1 := by
  induction cs with
  | nil => intro q inq x hx; exact hx
  | cons e cs ih =>
    intro q inq x hx
    unfold enqueueIncident
    rw [List.foldl_cons]
    split
    · exact ih (by simp [hx])
    · exact ih hx

theorem enqueueIncident_inq_sub {cs : List (Nat × Nat × Nat × ConstraintKind)}
    {c v : Nat} : ∀ {q inq : List Nat}, (∀ x, x ∈ inq → x ∈ q) →
    ∀ x, x ∈ (enqueueIncident cs c v (q, inq)).2 →
      x ∈ (enqueueIncident cs c v (q, inq)).1 := by
  induction cs with
  | nil => intro q inq h x hx; exact h x hx
  | cons e cs ih =>
    intro q inq h x
    unfold enqueueIncident
    rw [List.foldl_cons]
    split
    · refine ih ?_ x
      intro y hy
      simp only [List.mem_append, List.mem_singleton] at hy ⊢
      cases hy with
      | inl hy => exact Or.inl (h y hy)
      | inr hy => exact Or.inr hy
    · exact ih h x

theorem enqueueIncident_from {cs : List (Nat × Nat × Nat × ConstraintKind)}
    {c v : Nat} : ∀ {q inq : List Nat} {x : Nat},
    x ∈ (enqueueIncident cs c v (q, inq)).1 →
    x ∈ q ∨ ∃ e ∈ cs, e.1 = x := by
  induction cs with
  | nil => intro q inq x hx; exact Or.inl hx
  | cons e cs ih =>
    intro q inq x hx
    unfold enqueueIncident at hx
    rw [List.foldl_cons] at hx
    split at hx
    · rcases ih hx with hq | ⟨e1, he1, hk⟩
      · simp only [List.mem_append, List.mem_singleton] at hq
        cases hq with
        | inl hq => exact Or.inl hq
        | inr hq => exact Or.inr ⟨e, List.mem_cons_self e cs, hq.symm⟩
      · exact Or.inr ⟨e1, List.mem_cons_of_mem e he1, hk⟩
    · rcases ih hx with hq | ⟨e1, he1, hk⟩
      · exact Or.inl hq
      · exact Or.inr ⟨e1, List.mem_cons_of_mem e he1, hk⟩

theorem enqueueIncident_complete {cs : List (Nat × Nat × Nat × ConstraintKind)}
    {c v : Nat} : ∀ {q inq : List Nat}, (∀ x, x ∈ inq → x ∈ q) →
    ∀ e ∈ cs, e.1 ≠ c → (e.2.1 = v ∨ e.2.2.1 = v) →
      e.1 ∈ (enqueueIncident cs c v (q, inq)).1 := by
  induction cs with
  | nil => intro q inq h e he; cases he
  | cons e0 cs ih =>
    intro q inq h e he hne hinc
    have hstep : ∀ x, x ∈ q → x ∈ (enqueueIncident (e0 :: cs) c v (q, inq)).1 :=
      fun x hx => enqueueIncident_q_mono hx
    cases he with
    | head =>
      by_cases hc2 : inq.contains e0.1 = true
      · exact hstep _ (h _ (contains_iff.mp hc2))
      · unfold enqueueIncident
        rw [List.foldl_cons, if_pos ⟨hne, hc2, hinc⟩]
        exact enqueueIncident_q_mono (by simp)
    | tail _ htail =>
      unfold enqueueIncident
      rw [List.foldl_cons]
      split
      · refine ih ?_ e htail hne hinc
        intro y hy
        simp only [List.mem_append, List.mem_singleton] at hy ⊢
        cases hy with
        | inl hy => exact Or.inl (h y hy)
        | inr hy => exact Or.inr hy
      · exact ih h e htail hne hinc

theorem enqueueIncident_nodup {cs : List (Nat × Nat × Nat × ConstraintKind)}
    {c v : Nat} : ∀ {q inq : List Nat}, inq.Nodup →
    (enqueueIncident cs c v (q, inq)).2.Nodup := by
  induction cs with
  | nil => intro q inq h; exact h
  | cons e cs ih =>
    intro q inq h
    unfold enqueueIncident
    rw [List.foldl_cons]
    split
    · rename_i hcond
      refine ih ?_
      rw [List.nodup_append]
      refine ⟨h, List.nodup_singleton _, ?_⟩
      intro x hx hx1
      rw [List.mem_singleton] at hx1
      subst hx1
      exact hcond.2.1 (contains_iff.mpr hx)
    · exact ih h

theorem map_self_pointwise {α : Type} {f : α → α} : ∀ {l : List α},
    l.map f = l → ∀ x ∈ l, f x = x := by
  intro l
  induction l with
  | nil => intro _ x hx; cases hx
  | cons a l ih =>
    intro h x hx
    rw [List.map_cons] at h
    injection h with h1 h2
    cases hx with
    | head => exact h1
    | tail _ htail => exact ih h2 x htail

theorem revise_establishes {s s1 : Engine} {a b : Nat} {k : ConstraintKind}
    {c : Nat} {ch : Bool} (h : revise s a b k c = ReviseRes.ok s1 ch)
    (hab : a ≠ b) : arcSound s1 a b k := by
  obtain ⟨hother, dA, dB, ha, hb, ha1⟩ := revise_ok_get h
  intro st hmem hlive
  rw [getD_of_get? ha1] at hmem
  obtain ⟨st0, hst0, hf⟩ := List.mem_map.mp hmem
  have hsup : hasSupport k st0.value (activeDom dB) = true := by
    apply reviseSlot_live_of (c := c)
    rw [hf]
    exact hlive
  have hval : st.value = st0.value := by rw [← hf, reviseSlot_value]
  have hlb : liveAt s1 b = activeDom dB := by
    rw [liveAt_eq_of_get (hother b (fun hh => hab hh.symm))]
    unfold liveAt
    rw [getD_of_get? hb]
  rw [hlb, hval]
  exact hsup

theorem revise_unchanged {s s1 : Engine} {a b : Nat} {k : ConstraintKind}
    {c : Nat} (h : revise s a b k c = ReviseRes.ok s1 false) :
    s1 = s ∧ arcSound s a b k := by
  obtain ⟨dA, dB, ha, hb, hseq, hch, -⟩ := revise_ok_spec h
  have heq : dA.map (reviseSlot c (activeDom dB) k) = dA :=
    not_not.mp (of_decide_eq_false hch.symm)
  constructor
  · rw [hseq, heq, list_set_self ha]
  · intro st hmem hlive
    have hlb : liveAt s b = activeDom dB := by
      unfold liveAt
      rw [getD_of_get? hb]
    rw [hlb]
    rw [getD_of_get? ha] at hmem
    have hfix := map_self_pointwise heq st hmem
    by_contra hsup
    rw [reviseSlot_spec] at hfix
    have hcon := congrArg ValueState.suppressed_by hfix
    simp only at hcon
    rw [if_neg (by simpa using hsup), if_pos hlive] at hcon
    rw [hlive] at hcon
    cases hcon

theorem second_keeps_support {sA s2 : Engine} {v1 v2 c : Nat}
    {k : ConstraintKind} {ch2 : Bool} (hne : v1 ≠ v2)
    (h2 : revise sA v2 v1 k c = ReviseRes.ok s2 ch2) {x : Int}
    (hx : x ∈ liveAt sA v1) (hsup : hasSupport k x (liveAt sA v2) = true) :
    hasSupport k x (liveAt s2 v2) = true := by
  obtain ⟨hother, dA2, dB2, ha2, hb2, hg2⟩ := revise_ok_get h2
  have hBeq : activeDom dB2 = liveAt sA v1 := by
    unfold liveAt
    rw [getD_of_get? hb2]
  have hAeq : liveAt sA v2 = activeDom dA2 := by
    unfold liveAt
    rw [getD_of_get? ha2]
  have hres : liveAt s2 v2 = activeDom (dA2.map (reviseSlot c (activeDom dB2) k)) := by
    unfold liveAt
    rw [getD_of_get? hg2]
  rw [hasSupport_iff_spec] at hsup ⊢
  rw [hres]
  cases k with
  | equality =>
    rw [hAeq] at hsup
    obtain ⟨u, humem, hulive, huval⟩ := mem_activeDom.mp hsup
    have husup : hasSupport ConstraintKind.equality u.value (activeDom dB2) = true := by
      rw [hasSupport_iff_spec]
      simp only [supportSpec]
      rw [hBeq, huval]
      exact hx
    have hfix := reviseSlot_of_live_supported (c := c) hulive husup
    exact mem_activeDom.mpr ⟨u, by rw [← hfix]; exact List.mem_map_of_mem _ humem,
      hulive, huval⟩
  | inequality =>
    simp only [supportSpec] at hsup ⊢
    rw [hAeq] at hsup
    obtain ⟨w, hwmem, hwx⟩ := hsup
    obtain ⟨u, humem, hulive, huval⟩ := mem_activeDom.mp hwmem
    have husup : hasSupport ConstraintKind.inequality u.value (activeDom dB2) = true := by
      rw [hasSupport_iff_spec]
      simp only [supportSpec]
      exact ⟨x, by rw [hBeq]; exact hx, by rw [huval]; exact fun hh => hwx (hh ▸ rfl)⟩
    have hfix := reviseSlot_of_live_supported (c := c) hulive husup
    refine ⟨w, mem_activeDom.mpr ⟨u, ?_, hulive, huval⟩, hwx⟩
    rw [← hfix]
    exact List.mem_map_of_mem _ humem

theorem entrySound_transfer {s s2 : Engine} {e : Nat × Nat × Nat × ConstraintKind}
    (h1 : s2.values.get? e.2.1 = s.values.get? e.2.1)
    (h2 : s2.values.get? e.2.2.1 = s.values.get? e.2.2.1)
    (h : entrySound s e) : entrySound s2 e := by
  obtain ⟨ha, hb⟩ := h
  constructor
  · intro st hmem hlive
    rw [liveAt_eq_of_get h2]
    rw [getD_congr h1] at hmem
    exact ha st hmem hlive
  · intro st hmem hlive
    rw [liveAt_eq_of_get h1]
    rw [getD_congr h2] at hmem
    exact hb st hmem hlive

theorem lookupC_nodup_unique {cs : List (Nat × Nat × Nat × ConstraintKind)}
    {e : Nat × Nat × Nat × ConstraintKind} {t : Nat × Nat × ConstraintKind} :
    nodupKeys cs → e ∈ cs → lookupC cs e.1 = some t → e.2 = t := by
  induction cs with
  | nil => intro _ hmem; cases hmem
  | cons e0 cs ih =>
    intro hnodup hmem hl
    have hnodup2 : (keysOf cs).Nodup ∧ e0.1 ∉ keysOf cs := by
      have := hnodup
      unfold nodupKeys keysOf at this
      rw [List.map_cons, List.nodup_cons] at this
      exact ⟨this.2, this.1⟩
    unfold lookupC at hl
    by_cases hk : e0.1 = e.1
    · have : (e0 :: cs).find? (fun x => x.1 = e.1) = some e0 := by
        rw [List.find?_cons]
        simp [hk]
      rw [this] at hl
      injection hl with hl
      cases hmem with
      | head => rw [← hl]
      | tail _ htail =>
        exfalso
        apply hnodup2.2
        rw [hk]
        exact List.mem_map_of_mem _ htail
    · have : (e0 :: cs).find? (fun x => x.1 = e.1) = cs.find? (fun x => x.1 = e.1) := by
        rw [List.find?_cons]
        simp [hk]
      rw [this] at hl
      cases hmem with
      | head => exact absurd rfl hk
      | tail _ htail =>
        exact ih hnodup2.1 htail hl

theorem stepConstraint_next_sound {s s2 : Engine} {c : Nat} {ch : Bool}
    {v1 v2 : Nat} (hnodup : nodupKeys s.constraints) (hnoself : noSelf s)
    (hst : stepConstraint s c = StepRes.next s2 ch v1 v2) :
    (∀ e ∈ s.constraints, e.1 = c → entrySound s2 e) ∧
    (ch = false → s2 = s) ∧
    (∀ v, v ≠ v1 → v ≠ v2 → s2.values.get? v = s.values.get? v) := by
  obtain ⟨k, sA, ch1, ch2, hl, hr1, hr2, hch⟩ := stepConstraint_next_spec hst
  have hmemc := lookupC_mem hl
  have hv12 : v1 ≠ v2 := hnoself _ hmemc
  refine ⟨?_, ?_, ?_⟩
  · intro e hmem hek
    have ht : e.2 = (v1, v2, k) :=
      lookupC_nodup_unique hnodup hmem (by rw [hek]; exact hl)
    have hsound1 : arcSound s2 v2 v1 k := revise_establishes hr2 (fun hh => hv12 hh.symm)
    have hsound2 : arcSound s2 v1 v2 k := by
      intro st hmem2 hlive
      have hgv1 : s2.values.get? v1 = sA.values.get? v1 :=
        (revise_ok_get hr2).1 v1 hv12
      rw [getD_congr hgv1] at hmem2
      have hsupA : hasSupport k st.value (liveAt sA v2) = true :=
        revise_establishes hr1 hv12 st hmem2 hlive
      have hxA : st.value ∈ liveAt sA v1 :=
        mem_activeDom.mpr ⟨st, hmem2, hlive, rfl⟩
      exact second_keeps_support hv12 hr2 hxA hsupA
    unfold entrySound
    rw [ht]
    exact ⟨hsound2, hsound1⟩
  · intro hchf
    rw [hchf] at hch
    have hor := hch.symm
    rw [Bool.or_eq_false_iff] at hor
    have hsA : sA = s := (revise_unchanged (hor.1 ▸ hr1)).1
    have hs2 : s2 = sA := (revise_unchanged (hor.2 ▸ hr2)).1
    rw [hs2, hsA]
  · intro v hv1 hv2
    have hg2 : s2.values.get? v = sA.values.get? v := (revise_ok_get hr2).1 v hv2
    have hg1 : sA.values.get? v = s.values.get? v := (revise_ok_get hr1).1 v hv1
    exact hg2.trans hg1

theorem propagateLoop_sound :
    ∀ (fuel : Nat) {s : Engine} {q inq : List Nat} {s1 : Engine},
    nodupKeys s.constraints → noSelf s → soundExcept s q →
    (∀ x, x ∈ inq → x ∈ q) → inq.Nodup →
    propagateLoop fuel s q inq = PResult.ok s1 → soundExcept s1 [] := by
  intro fuel
  induction fuel with
  | zero => intro s q inq s1 _ _ _ _ _ h; cases h
  | succ n ih =>
    intro s q inq s1 hnodup hnoself hsound hinq hnd h
    cases q with
    | nil =>
      simp only [propagateLoop] at h
      injection h with h1
      subst h1
      intro e hmem _
      exact hsound e hmem (by simp)
    | cons c q1 =>
      simp only [propagateLoop] at h
      split at h
      · rename_i r hst
        exact absurd h (stepConstraint_term_not_ok hst s1)
      · rename_i s2 changed v1 v2 hst
        obtain ⟨hsoundc, hchf, hother⟩ := stepConstraint_next_sound hnodup hnoself hst
        have hfs := stepConstraint_next_fields hst
        have hnodup2 : nodupKeys s2.constraints := by rw [hfs.1]; exact hnodup
        have hnoself2 : noSelf s2 := fun e hmem => hnoself e (hfs.1 ▸ hmem)
        have hinq1 : ∀ x, x ∈ inq.erase c → x ∈ q1 := by
          intro x hx
          have hxq := hinq x (List.mem_of_mem_erase hx)
          have hxc : x ≠ c := ((List.Nodup.mem_erase_iff hnd).mp hx).1
          cases hxq with
          | head => exact absurd rfl hxc
          | tail _ ht => exact ht
        have hnd1 : (inq.erase c).Nodup := hnd.erase c
        split at h
        · rename_i hchanged
          simp only [enqueueBoth] at h
          have hsub1 : ∀ x, x ∈ (enqueueIncident s2.constraints c v1 (q1, inq.erase c)).2 →
              x ∈ (enqueueIncident s2.constraints c v1 (q1, inq.erase c)).1 :=
            enqueueIncident_inq_sub hinq1
          refine ih hnodup2 hnoself2 ?_ ?_ ?_ h
          · intro e hmem henq
            by_cases hec : e.1 = c
            · exact hsoundc e (hfs.1 ▸ hmem) hec
            · have hmem_s : e ∈ s.constraints := hfs.1 ▸ hmem
              by_cases hinc1 : e.2.1 = v1 ∨ e.2.2.1 = v1
              · exact absurd (enqueueIncident_q_mono
                  (enqueueIncident_complete hinq1 e hmem hec hinc1)) henq
              · by_cases hinc2 : e.2.1 = v2 ∨ e.2.2.1 = v2
                · exact absurd
                    (enqueueIncident_complete hsub1 e hmem hec hinc2) henq
                · push_neg at hinc1 hinc2
                  have hq1 : e.1 ∉ q1 := fun hq =>
                    henq (enqueueIncident_q_mono (enqueueIncident_q_mono hq))
                  have hnotq : e.1 ∉ c :: q1 := by
                    intro hcq
                    cases hcq with
                    | head => exact hec rfl
                    | tail _ ht => exact hq1 ht
                  exact entrySound_transfer (hother _ hinc1.1 hinc2.1)
                    (hother _ hinc1.2 hinc2.2) (hsound e hmem_s hnotq)
          · exact enqueueIncident_inq_sub hsub1
          · exact enqueueIncident_nodup (enqueueIncident_nodup hnd1)
        · rename_i hchanged
          have hs2 : s2 = s := hchf (by
            cases hcv : changed with
            | true => exact absurd hcv hchanged
            | false => rfl)
          rw [hs2] at h
          refine ih hnodup hnoself ?_ hinq1 hnd1 h
          intro e hmem hq1
          by_cases hec : e.1 = c
          · have := hsoundc e (hfs.1 ▸ hmem) hec
            rw [hs2] at this
            exact this
          · refine hsound e hmem ?_
            intro hcq
            cases hcq with
            | head => exact hec rfl
            | tail _ ht => exact hq1 ht

theorem eraseDups_loop_mem {l acc : List Nat} {x : Nat} :
    x ∈ List.eraseDups.loop l acc → x ∈ l ∨ x ∈ acc := by
  induction l generalizing acc with
  | nil =>
    intro h
    unfold List.eraseDups.loop at h
    exact Or.inr (List.mem_reverse.mp h)
  | cons a l ih =>
    intro h
    unfold List.eraseDups.loop at h
    split at h
    · rcases ih h with h1 | h1
      · exact Or.inl (List.mem_cons_of_mem a h1)
      · exact Or.inr h1
    · rcases ih h with h1 | h1
      · exact Or.inl (List.mem_cons_of_mem a h1)
      · cases h1 with
        | head => exact Or.inl (List.mem_cons_self _ _)
        | tail _ ht => exact Or.inr ht

theorem eraseDups_loop_nodup {l : List Nat} : ∀ {acc : List Nat}, acc.Nodup →
    (List.eraseDups.loop l acc).Nodup := by
  induction l with
  | nil =>
    intro acc h
    unfold List.eraseDups.loop
    exact List.nodup_reverse.mpr h
  | cons a l ih =>
    intro acc h
    unfold List.eraseDups.loop
    split
    · exact ih h
    · rename_i helem
      refine ih (List.nodup_cons.mpr ⟨?_, h⟩)
      intro hmem
      have helem2 : List.elem a acc = true := List.elem_iff.mpr hmem
      rw [helem] at helem2
      cases helem2

theorem mem_of_mem_eraseDups {l : List Nat} {x : Nat} (h : x ∈ l.eraseDups) :
    x ∈ l := by
  unfold List.eraseDups at h
  rcases eraseDups_loop_mem h with h1 | h1
  · exact h1
  · cases h1

theorem nodup_eraseDups (l : List Nat) : l.eraseDups.Nodup := by
  unfold List.eraseDups
  exact eraseDups_loop_nodup List.nodup_nil

theorem liveAt_ne_imp_lt {s : Engine} {v : Nat} (h : liveAt s v ≠ []) :
    v < s.values.length := by
  by_contra hge
  apply h
  unfold liveAt
  have hnone : s.values.get? v = none := by
    rw [List.get?_eq_getElem?]
    exact List.getElem?_eq_none (Nat.le_of_not_lt hge)
  rw [List.getD_eq_getElem?_getD, ← List.get?_eq_getElem?, hnone]
  rfl

theorem clearMarks_length (d : List ValueState) (id : Nat) :
    (clearMarks d id).length = d.length := by
  simp [clearMarks]

theorem clearVar_fields (id : Nat) (s : Engine) (v : Nat) :
    (clearVar id s v).constraints = s.constraints ∧
    (clearVar id s v).listeners = s.listeners ∧
    (clearVar id s v).invocations = s.invocations ∧
    (clearVar id s v).values.length = s.values.length := by
  unfold clearVar
  split
  · exact ⟨rfl, rfl, rfl, rfl⟩
  · exact ⟨rfl, rfl, rfl, by simp⟩

theorem clearVar_get_other {id : Nat} {s : Engine} {v w : Nat} (h : v ≠ w) :
    (clearVar id s v).values.get? w = s.values.get? w := by
  unfold clearVar
  split
  · rfl
  · exact get?_set_other h _

theorem engSub_clearVar {s0 s : Engine} (id : Nat) (v : Nat)
    (h : engSub s0 s) : engSub s0 (clearVar id s v) := by
  unfold clearVar
  split
  · exact h
  · rename_i d hd
    refine ⟨by simpa using h.1, fun w => ?_⟩
    by_cases hw : w = v
    · subst hw
      have hgd : s.values.getD w [] = d := getD_of_get? hd
      have hnew : ((⟨s.values.set w (clearMarks d id), s.constraints,
          s.listeners, s.invocations⟩ : Engine)).values.getD w [] = clearMarks d id :=
        getD_of_get? (get?_set_here hd _)
      obtain ⟨hlen, hslot⟩ := h.2 w
      rw [hgd] at hlen hslot
      rw [hnew]
      refine ⟨by rw [hlen, clearMarks_length], ?_⟩
      intro i stR st hgR hg
      unfold clearMarks at hg
      rw [List.get?_map] at hg
      cases hg0 : d.get? i with
      | none => rw [hg0] at hg; cases hg
      | some st0 =>
        rw [hg0] at hg
        injection hg with hg
        obtain ⟨hval, hlive⟩ := hslot i stR st0 hgR hg0
        constructor
        · rw [← hg]
          dsimp only
          split <;> simp [hval]
        · intro hnone
          rw [← hg]
          dsimp only
          have h0 := hlive hnone
          split
          · rfl
          · exact h0
    · have : (clearVar id s v).values.get? w = s.values.get? w :=
        clearVar_get_other (fun hh => hw hh.symm)
      unfold clearVar at this
      rw [hd] at this
      rw [getD_congr this]
      exact h.2 w

theorem engSub_refl (s : Engine) : engSub s s := by
  refine ⟨rfl, fun v => ⟨rfl, fun i stR st hgR hg => ?_⟩⟩
  rw [hgR] at hg
  injection hg with hg
  subst hg
  exact ⟨rfl, fun h => h⟩

theorem engSub_clearTouched (s : Engine) (id v1 v2 : Nat) :
    engSub s (clearTouched s id v1 v2) := by
  unfold clearTouched
  exact engSub_clearVar id v2 (engSub_clearVar id v1 (engSub_refl s))

theorem clearTouched_fields (s : Engine) (id v1 v2 : Nat) :
    (clearTouched s id v1 v2).constraints = s.constraints ∧
    (clearTouched s id v1 v2).values.length = s.values.length := by
  unfold clearTouched
  obtain ⟨c2, -, -, l2⟩ := clearVar_fields id (clearVar id s v1) v2
  obtain ⟨c1, -, -, l1⟩ := clearVar_fields id s v1
  exact ⟨c2.trans c1, l2.trans l1⟩

theorem clearTouched_get_other {s : Engine} {id v1 v2 w : Nat}
    (h1 : v1 ≠ w) (h2 : v2 ≠ w) :
    (clearTouched s id v1 v2).values.get? w = s.values.get? w := by
  unfold clearTouched
  rw [clearVar_get_other h2, clearVar_get_other h1]

theorem insertC_cases {cs : List (Nat × Nat × Nat × ConstraintKind)} {id : Nat}
    {t : Nat × Nat × ConstraintKind} {e : Nat × Nat × Nat × ConstraintKind}
    (h : e ∈ insertC cs id t) : e = (id, t) ∨ (e ∈ cs ∧ e.1 ≠ id) := by
  unfold insertC at h
  split at h
  · rw [List.mem_map] at h
    obtain ⟨e0, he0, hif⟩ := h
    by_cases hk : e0.1 = id
    · rw [if_pos hk] at hif
      exact Or.inl hif.symm
    · rw [if_neg hk] at hif
      subst hif
      exact Or.inr ⟨he0, hk⟩
  · rw [List.mem_append, List.mem_singleton] at h
    cases h with
    | inl h1 =>
      by_cases hk : e.1 = id
      · exfalso
        rename_i hfind
        apply hfind
        rw [List.find?_isSome]
        exact ⟨e, h1, by simp [hk]⟩
      · exact Or.inr ⟨h1, hk⟩
    | inr h1 => exact Or.inl h1

theorem insertC_nodup {cs : List (Nat × Nat × Nat × ConstraintKind)} {id : Nat}
    {t : Nat × Nat × ConstraintKind} (h : nodupKeys cs) :
    nodupKeys (insertC cs id t) := by
  unfold insertC
  split
  · unfold nodupKeys keysOf at h ⊢
    have : (cs.map (fun e => if e.1 = id then (id, t) else e)).map (fun e => e.1) =
        cs.map (fun e => e.1) := by
      rw [List.map_map]
      apply List.map_congr_left
      intro e _
      by_cases hk : e.1 = id
      · simp [hk]
      · simp [hk]
    rw [this]
    exact h
  · rename_i hfind
    unfold nodupKeys keysOf at h ⊢
    rw [List.map_append]
    rw [List.nodup_append]
    refine ⟨h, List.nodup_singleton _, ?_⟩
    intro x hx hx1
    simp only [List.map_cons, List.map_nil, List.mem_singleton] at hx1
    subst hx1
    rw [List.mem_map] at hx
    obtain ⟨e, he, hek⟩ := hx
    apply hfind
    rw [List.find?_isSome]
    exact ⟨e, he, by simp [hek]⟩

theorem insertC_lookup_self {cs : List (Nat × Nat × Nat × ConstraintKind)}
    {id : Nat} {t : Nat × Nat × ConstraintKind} :
    lookupC (insertC cs id t) id = some t := by
  unfold insertC lookupC
  split
  · rename_i hfind
    rw [List.find?_isSome] at hfind
    obtain ⟨e, he, hek⟩ := hfind
    have hek2 : e.1 = id := by simpa using hek
    clear hek
    induction cs with
    | nil => cases he
    | cons e0 cs ih =>
      by_cases hk : e0.1 = id
      · rw [List.map_cons, if_pos hk]
        rw [List.find?_cons_of_pos _ (by simp)]
        rfl
      · rw [List.map_cons, if_neg hk]
        rw [List.find?_cons_of_neg _ (by simp [hk])]
        cases he with
        | head => exact absurd hek2 hk
        | tail _ ht => exact ih ht
  · rw [List.find?_append]
    rename_i hfind
    have h1 : cs.find? (fun e => decide (e.1 = id)) = none := by
      cases hf : cs.find? (fun e => decide (e.1 = id)) with
      | none => rfl
      | some e => exact absurd (by rw [hf]; rfl) hfind
    rw [h1]
    rw [List.find?_cons_of_pos _ (by simp)]
    rfl

theorem removeC_mem {cs : List (Nat × Nat × Nat × ConstraintKind)}
    {id : Nat} {e : Nat × Nat × Nat × ConstraintKind} :
    e ∈ removeC cs id ↔ e ∈ cs ∧ e.1 ≠ id := by
  unfold removeC
  rw [List.mem_filter]
  simp

theorem removeC_nodup {cs : List (Nat × Nat × Nat × ConstraintKind)} {id : Nat}
    (h : nodupKeys cs) : nodupKeys (removeC cs id) := by
  unfold nodupKeys keysOf at h ⊢
  unfold removeC
  exact h.sublist ((List.filter_sublist cs).map _)

theorem removeC_lookup_other {cs : List (Nat × Nat × Nat × ConstraintKind)}
    {id c : Nat} (hne : c ≠ id) : lookupC (removeC cs id) c = lookupC cs c := by
  unfold lookupC removeC
  induction cs with
  | nil => rfl
  | cons e0 cs ih =>
    by_cases hk : e0.1 = id
    · rw [List.filter_cons_of_neg (by simp [hk])]
      rw [List.find?_cons_of_neg _ (by simp [hk]; exact fun hc => hne hc.symm)]
      exact ih
    · rw [List.filter_cons_of_pos (by simp [hk])]
      by_cases hc : e0.1 = c
      · rw [List.find?_cons_of_pos _ (by simp [hc]),
          List.find?_cons_of_pos _ (by simp [hc])]
      · rw [List.find?_cons_of_neg _ (by simp [hc]),
          List.find?_cons_of_neg _ (by simp [hc])]
        exact ih

theorem finishAdd_ok {id : Nat} {p : PResult} {i : Nat} {s2 : Engine}
    (h : finishAdd id p = AddRes.ok i s2) : i = id ∧ p = PResult.ok s2 := by
  cases p with
  | ok s => injection h with h1 h2; exact ⟨h1.symm, by rw [h2]⟩
  | wiped v s => cases h
  | abort a => cases h

theorem finishAdd_err {id : Nat} {p : PResult} {i : Nat} {e : List Nat}
    {s2 : Engine} (h : finishAdd id p = AddRes.err i e s2) :
    i = id ∧ ∃ v, p = PResult.wiped v s2 ∧ e = getConflictExplanation s2 v := by
  cases p with
  | ok s => cases h
  | wiped v s =>
    injection h with h1 h2 h3
    subst h3
    exact ⟨h1.symm, v, rfl, h2.symm⟩
  | abort a => cases h

theorem finishRetract_ok {p : PResult} {s2 : Engine}
    (h : finishRetract p = RetractRes.ok s2) : p = PResult.ok s2 := by
  cases p with
  | ok s => injection h with h1; rw [h1]
  | wiped v s => cases h
  | abort a => cases h

theorem finishRetract_logicError {p : PResult} {v : Nat}
    (h : finishRetract p = RetractRes.logicError v) :
    ∃ s', p = PResult.wiped v s' := by
  cases p with
  | ok s => cases h
  | wiped w s => injection h with h1; exact ⟨s, by rw [h1]⟩
  | abort a => cases h

theorem incidentIds_complete {cs : List (Nat × Nat × Nat × ConstraintKind)}
    {v : Nat} {e : Nat × Nat × Nat × ConstraintKind} (hmem : e ∈ cs)
    (hinc : e.2.1 = v ∨ e.2.2.1 = v) : e.1 ∈ incidentIds cs v := by
  unfold incidentIds
  apply List.mem_map_of_mem
  rw [List.mem_filter]
  refine ⟨hmem, ?_⟩
  rcases hinc with h | h <;> simp [h]

theorem entrySound_values_eq {s s1 : Engine}
    {e : Nat × Nat × Nat × ConstraintKind} (h : s1.values = s.values)
    (hs : entrySound s e) : entrySound s1 e := by
  exact entrySound_transfer (by rw [h]) (by rw [h]) hs

theorem propagateLoop_first_live {fuel : Nat} {s : Engine} {c : Nat}
    {q1 inq : List Nat} {s1 : Engine} {v1 v2 : Nat} {k : ConstraintKind}
    (h : propagateLoop fuel s (c :: q1) inq = PResult.ok s1)
    (hl : lookupC s.constraints c = some (v1, v2, k)) :
    liveAt s1 v1 ≠ [] ∧ liveAt s1 v2 ≠ [] := by
  cases fuel with
  | zero => cases h
  | succ n =>
    simp only [propagateLoop] at h
    split at h
    · rename_i r hst
      exact absurd h (stepConstraint_term_not_ok hst s1)
    · rename_i s2 changed v1x v2x hst
      obtain ⟨kx, sA, ch1, ch2, hlx, -, -, -⟩ := stepConstraint_next_spec hst
      rw [hl] at hlx
      injection hlx with hlx
      injection hlx with he1 hlx
      injection hlx with he2 he3
      subst he1; subst he2
      obtain ⟨-, hl1, hl2⟩ := stepConstraint_next_live hst
      split at h <;>
        exact ⟨propagateLoop_ok_live _ h v1 hl1, propagateLoop_ok_live _ h v2 hl2⟩

theorem engSub_values_eq {s s1 : Engine} (h : s1.values = s.values) :
    engSub s s1 := by
  refine ⟨by rw [h], fun v => ?_⟩
  rw [h]
  exact (engSub_refl s).2 v

theorem eraseDups_single (x : Nat) : ([x] : List Nat).eraseDups = [x] := rfl

theorem goodPack_init : goodPack engineInit := by
  refine ⟨fun e hmem => ?_, fun e hmem => ?_, fun e hmem => ?_, ?_⟩
  · cases hmem
  · cases hmem
  · cases hmem
  · exact List.nodup_nil

theorem goodPack_addVar {s : Engine} (h : goodPack s) (vals : List Int) :
    goodPack (add_var s vals).2 := by
  obtain ⟨hsound, hcvars, hnoself, hnodup⟩ := h
  have hget : ∀ v, v < s.values.length →
      (add_var s vals).2.values.get? v = s.values.get? v := by
    intro v hv
    unfold add_var
    exact List.get?_append hv
  refine ⟨?_, ?_, hnoself, hnodup⟩
  · intro e hmem hq
    have he := hsound e hmem (by simp)
    obtain ⟨hlt1, hlt2⟩ := hcvars e hmem
    exact entrySound_transfer (hget _ (liveAt_ne_imp_lt hlt1))
      (hget _ (liveAt_ne_imp_lt hlt2)) he
  · intro e hmem
    obtain ⟨hlt1, hlt2⟩ := hcvars e hmem
    rw [liveAt_eq_of_get (hget _ (liveAt_ne_imp_lt hlt1)),
      liveAt_eq_of_get (hget _ (liveAt_ne_imp_lt hlt2))]
    exact ⟨hlt1, hlt2⟩

theorem goodPack_addK {s s2 : Engine} {k : ConstraintKind} {fuel : Nat}
    {v1 v2 : Nat} {i : Nat} (h : goodPack s) (hne : v1 ≠ v2)
    (hok : addConstraintK k fuel s v1 v2 = AddRes.ok i s2) : goodPack s2 := by
  obtain ⟨hsound, hcvars, hnoself, hnodup⟩ := h
  unfold addConstraintK at hok
  obtain ⟨-, hprop⟩ := finishAdd_ok hok
  unfold propagate propagateFromQueue at hprop
  rw [eraseDups_single] at hprop
  set cs1 := insertC s.constraints s.constraints.length (v1, v2, k) with hcs1
  set sm : Engine := { s with constraints := cs1 } with hsm
  have hvals1 : sm.values = s.values := rfl
  have hnodup1 : nodupKeys sm.constraints := insertC_nodup hnodup
  have hnoself1 : noSelf sm := by
    intro e hmem
    have hmem2 : e ∈ cs1 := hmem
    rw [hcs1] at hmem2
    rcases insertC_cases hmem2 with he | ⟨he, -⟩
    · rw [he]; exact hne
    · exact hnoself e he
  have hsound1 : soundExcept sm [s.constraints.length] := by
    intro e hmem hq
    rw [show sm.constraints = cs1 from rfl, hcs1] at hmem
    rcases insertC_cases hmem with he | ⟨he, hk1⟩
    · exfalso; apply hq; rw [he]; simp
    · exact entrySound_values_eq hvals1 (hsound e he (by simp))
  have hcs2 : s2.constraints = cs1 := (propagateLoop_ok_fields _ hprop).1
  have hsnd2 : soundExcept s2 [] :=
    propagateLoop_sound _ hnodup1 hnoself1 hsound1
      (fun x hx => hx) (List.nodup_singleton _) hprop
  refine ⟨hsnd2, ?_, ?_, ?_⟩
  · intro e hmem
    rw [hcs2, hcs1] at hmem
    rcases insertC_cases hmem with he | ⟨he, -⟩
    · have hfirst := propagateLoop_first_live hprop
        (show lookupC sm.constraints s.constraints.length = some (v1, v2, k) from
          insertC_lookup_self)
      rw [he]
      exact hfirst
    · obtain ⟨hl1, hl2⟩ := hcvars e he
      have hl1b : liveAt sm e.2.1 ≠ [] := by
        rw [liveAt_eq_of_get (by rw [hvals1])]; exact hl1
      have hl2b : liveAt sm e.2.2.1 ≠ [] := by
        rw [liveAt_eq_of_get (by rw [hvals1])]; exact hl2
      exact ⟨propagateLoop_ok_live _ hprop _ hl1b,
        propagateLoop_ok_live _ hprop _ hl2b⟩
  · intro e hmem
    rw [hcs2] at hmem
    exact hnoself1 e hmem
  · rw [hcs2]
    exact hnodup1

theorem goodPack_retract {s s2 : Engine} {fuel : Nat} {id : Nat}
    (h : goodPack s) (hok : retract_constraint fuel s id = RetractRes.ok s2) :
    goodPack s2 := by
  obtain ⟨hsound, hcvars, hnoself, hnodup⟩ := h
  unfold retract_constraint at hok
  split at hok
  · injection hok with h1; rw [← h1]; exact ⟨hsound, hcvars, hnoself, hnodup⟩
  · rename_i v1 v2 k hl
    have hprop := finishRetract_ok hok
    set s0 : Engine := { s with constraints := removeC s.constraints id } with hs0
    set sc := clearTouched s0 id v1 v2 with hsc
    have hccs : sc.constraints = removeC s.constraints id :=
      (clearTouched_fields s0 id v1 v2).1
    have hsub : engSub s sc := by
      rw [hsc]
      unfold clearTouched
      exact engSub_clearVar id v2 (engSub_clearVar id v1 (engSub_values_eq rfl))
    unfold propagateTouching propagateFromQueue at hprop
    simp only [List.foldl_cons, List.foldl_nil, List.nil_append] at hprop
    have hnodupc : nodupKeys sc.constraints := by rw [hccs]; exact removeC_nodup hnodup
    have hnoselfc : noSelf sc := by
      intro e hmem
      rw [hccs] at hmem
      exact hnoself e (removeC_mem.mp hmem).1
    have hsoundc : soundExcept sc
        (incidentIds sc.constraints v1 ++ incidentIds sc.constraints v2) := by
      intro e hmem hq
      have hes : e ∈ s.constraints := by
        rw [hccs] at hmem
        exact (removeC_mem.mp hmem).1
      by_cases hinc1 : e.2.1 = v1 ∨ e.2.2.1 = v1
      · exact absurd (List.mem_append_left _ (incidentIds_complete hmem hinc1)) hq
      · by_cases hinc2 : e.2.1 = v2 ∨ e.2.2.1 = v2
        · exact absurd (List.mem_append_right _ (incidentIds_complete hmem hinc2)) hq
        · push_neg at hinc1 hinc2
          have hg1 : sc.values.get? e.2.1 = s.values.get? e.2.1 := by
            rw [hsc]
            exact clearTouched_get_other (fun hh => hinc1.1 hh.symm)
              (fun hh => hinc2.1 hh.symm)
          have hg2 : sc.values.get? e.2.2.1 = s.values.get? e.2.2.1 := by
            rw [hsc]
            exact clearTouched_get_other (fun hh => hinc1.2 hh.symm)
              (fun hh => hinc2.2 hh.symm)
          exact entrySound_transfer hg1 hg2 (hsound e hes (by simp))
    have hsnd2 : soundExcept s2 [] :=
      propagateLoop_sound _ hnodupc hnoselfc hsoundc
        (fun x hx => mem_of_mem_eraseDups hx) (nodup_eraseDups _) hprop
    have hcs2 := (propagateLoop_ok_fields _ hprop).1
    refine ⟨hsnd2, ?_, ?_, ?_⟩
    · intro e hmem
      rw [hcs2, hccs] at hmem
      have hes : e ∈ s.constraints := (removeC_mem.mp hmem).1
      obtain ⟨hl1, hl2⟩ := hcvars e hes
      have hl1c : liveAt sc e.2.1 ≠ [] := by
        intro hemp
        obtain ⟨x, hx⟩ := List.exists_mem_of_ne_nil _ hl1
        have := liveAt_sub hsub e.2.1 x hx
        rw [hemp] at this
        cases this
      have hl2c : liveAt sc e.2.2.1 ≠ [] := by
        intro hemp
        obtain ⟨x, hx⟩ := List.exists_mem_of_ne_nil _ hl2
        have := liveAt_sub hsub e.2.2.1 x hx
        rw [hemp] at this
        cases this
      exact ⟨propagateLoop_ok_live _ hprop _ hl1c,
        propagateLoop_ok_live _ hprop _ hl2c⟩
    · intro e hmem
      rw [hcs2] at hmem
      exact hnoselfc e hmem
    · rw [hcs2]
      exact hnodupc

theorem goodPack_listen {s : Engine} (h : goodPack s) (v tok : Nat) :
    goodPack (set_listener s v tok) := by
  obtain ⟨hsound, hcvars, hnoself, hnodup⟩ := h
  refine ⟨?_, ?_, hnoself, hnodup⟩
  · intro e hmem hq
    exact entrySound_values_eq rfl (hsound e hmem hq)
  · intro e hmem
    have h1 : liveAt (set_listener s v tok) e.2.1 = liveAt s e.2.1 :=
      liveAt_eq_of_get rfl
    have h2 : liveAt (set_listener s v tok) e.2.2.1 = liveAt s e.2.2.1 :=
      liveAt_eq_of_get rfl
    rw [h1, h2]
    exact hcvars e hmem

theorem runAllStrict_none (fuel : Nat) (cmds : List Cmd) :
    cmds.foldl (fun acc c => acc.bind (fun s1 => runCmdStrict fuel s1 c))
      (none : Option Engine) = none := by
  induction cmds with
  | nil => rfl
  | cons c cmds ih => simpa using ih

theorem runAllStrict_cons (fuel : Nat) (s : Engine) (cmd : Cmd)
    (cmds : List Cmd) :
    runAllStrict fuel s (cmd :: cmds) =
      (runCmdStrict fuel s cmd).bind (fun s1 => runAllStrict fuel s1 cmds) := by
  unfold runAllStrict
  rw [List.foldl_cons]
  cases h : runCmdStrict fuel s cmd with
  | some s1 => simp [h]
  | none => simp [h]; exact runAllStrict_none fuel cmds

theorem runCmdStrict_good {s s1 : Engine} {fuel : Nat} {cmd : Cmd}
    (h : goodPack s) (hns : cmdNoSelf cmd)
    (hr : runCmdStrict fuel s cmd = some s1) : goodPack s1 := by
  cases cmd with
  | addVar vals =>
    injection hr with hr
    rw [← hr]
    exact goodPack_addVar h vals
  | addEq a b =>
    simp only [runCmdStrict] at hr
    split at hr
    · rename_i i s' hok
      injection hr with hr
      rw [← hr]
      exact goodPack_addK h hns hok
    · cases hr
  | addNeq a b =>
    simp only [runCmdStrict] at hr
    split at hr
    · rename_i i s' hok
      injection hr with hr
      rw [← hr]
      exact goodPack_addK h hns hok
    · cases hr
  | retract id =>
    simp only [runCmdStrict] at hr
    split at hr
    · rename_i s' hok
      injection hr with hr
      rw [← hr]
      exact goodPack_retract h hok
    · cases hr
  | listen v tok =>
    injection hr with hr
    rw [← hr]
    exact goodPack_listen h v tok

theorem runAllStrict_good {fuel : Nat} {cmds : List Cmd} :
    ∀ {s s1 : Engine}, cmdsNoSelf cmds →
    runAllStrict fuel s cmds = some s1 → goodPack s → goodPack s1 := by
  induction cmds with
  | nil =>
    intro s s1 _ h hg
    injection h with h1
    rw [← h1]
    exact hg
  | cons cmd cmds ih =>
    intro s s1 hns h hg
    rw [runAllStrict_cons] at h
    cases hc : runCmdStrict fuel s cmd with
    | none => rw [hc] at h; cases h
    | some sm =>
      rw [hc] at h
      have hg1 : goodPack sm :=
        runCmdStrict_good hg (hns cmd (List.mem_cons_self _ _)) hc
      exact ih (fun c hcm => hns c (List.mem_cons_of_mem _ hcm)) h hg1

theorem goodPack_no_retract_wipe {s : Engine} (h : goodPack s)
    (fuel id v : Nat) :
    retract_constraint fuel s id ≠ RetractRes.logicError v := by
  intro hcon
  obtain ⟨hsound, hcvars, hnoself, hnodup⟩ := h
  unfold retract_constraint at hcon
  split at hcon
  · cases hcon
  · rename_i v1 v2 k hl
    obtain ⟨s', hp⟩ := finishRetract_logicError hcon
    unfold propagateTouching propagateFromQueue at hp
    have hsub : engSub s (clearTouched
        { s with constraints := removeC s.constraints id } id v1 v2) := by
      unfold clearTouched
      exact engSub_clearVar id v2 (engSub_clearVar id v1 (engSub_values_eq rfl))
    have href : refOk s (clearTouched
        { s with constraints := removeC s.constraints id } id v1 v2).constraints := by
      intro e hmem
      rw [(clearTouched_fields _ id v1 v2).1] at hmem
      have hes : e ∈ s.constraints := (removeC_mem.mp hmem).1
      exact ⟨hsound e hes (by simp), (hcvars e hes).1, (hcvars e hes).2⟩
    exact propagateLoop_no_wipe _ hsub href v s' hp

/-- C6 (amended): from every state reached from the fresh engine by a sequence
of public calls that all return success, in which every added constraint
relates two distinct variables (the spec's data model, §3, stipulates
`a ≠ b`), `retract_constraint` never re-propagates into a domain wipeout: the
panicking branch is unreachable. -/
theorem retract_no_wipeout_after_all_success {fuel fuel2 : Nat}
    {cmds : List Cmd} {s : Engine} (hns : cmdsNoSelf cmds)
    (hrun : runAllStrict fuel engineInit cmds = some s) (id v : Nat) :
    retract_constraint fuel2 s id ≠ RetractRes.logicError v :=
  goodPack_no_retract_wipe (runAllStrict_good hns hrun goodPack_init) fuel2 id v

/-- The spec's multiple-suppression scenario, all calls succeeding. -/
def wCmds : List Cmd :=
  [.addVar [1, 2, 3], .addVar [1], .addVar [1], .addNeq 0 1, .addNeq 0 2,
   .retract 0]

/-- The engine reached by `wCmds`. -/
def wEnd : Engine :=
  ⟨[[⟨1, some 1⟩, ⟨2, none⟩, ⟨3, none⟩], [⟨1, none⟩], [⟨1, none⟩]],
   [(1, 0, 2, .inequality)], [], []⟩

theorem retract_no_wipeout_witness :
    cmdsNoSelf wCmds ∧ runAllStrict 20 engineInit wCmds = some wEnd ∧
    retract_constraint 20 wEnd 1 ≠ RetractRes.logicError 0 :=
  ⟨by unfold cmdsNoSelf; decide, by decide,
   @retract_no_wipeout_after_all_success 20 20 wCmds wEnd
     (by unfold cmdsNoSelf; decide) (by decide) 1 0⟩

theorem allVarsLive_addVar {s : Engine} (h : allVarsLive s) {vals : List Int}
    (hvne : vals ≠ []) : allVarsLive (add_var s vals).2 := by
  intro v hv
  have hlen : (add_var s vals).2.values.length = s.values.length + 1 := by
    simp [add_var]
  rw [hlen] at hv
  by_cases hvlt : v < s.values.length
  · have hget : (add_var s vals).2.values.get? v = s.values.get? v := by
      unfold add_var
      exact List.get?_append hvlt
    rw [liveAt_eq_of_get hget]
    exact h v hvlt
  · have hveq : v = s.values.length := by omega
    subst hveq
    have hget : (add_var s vals).2.values.get? s.values.length =
        some (vals.map (fun v => ⟨v, none⟩)) := by
      unfold add_var
      exact List.get?_concat_length _ _
    unfold liveAt
    rw [getD_of_get? hget, activeDom_fresh]
    exact hvne

theorem allVarsLive_loop {fuel : Nat} {s : Engine} {q inq : List Nat}
    {s1 : Engine} (hp : propagateLoop fuel s q inq = PResult.ok s1)
    (h : allVarsLive s) : allVarsLive s1 := by
  intro v hv
  rw [(propagateLoop_ok_fields _ hp).2.2.2] at hv
  exact propagateLoop_ok_live _ hp v (h v hv)

theorem runCmdStrict_live {s s1 : Engine} {fuel : Nat} {cmd : Cmd}
    (hvals : ∀ vals, cmd = Cmd.addVar vals → vals ≠ [])
    (hr : runCmdStrict fuel s cmd = some s1) (h : allVarsLive s) :
    allVarsLive s1 := by
  cases cmd with
  | addVar vals =>
    injection hr with hr
    rw [← hr]
    exact allVarsLive_addVar h (hvals vals rfl)
  | addEq a b =>
    simp only [runCmdStrict] at hr
    split at hr
    · rename_i i s' hok
      injection hr with hr
      subst hr
      unfold new_eq addConstraintK at hok
      obtain ⟨-, hprop⟩ := finishAdd_ok hok
      unfold propagate propagateFromQueue at hprop
      exact allVarsLive_loop hprop (fun v hv => by
        rw [liveAt_eq_of_get (show _ from rfl)]
        exact h v hv)
    · cases hr
  | addNeq a b =>
    simp only [runCmdStrict] at hr
    split at hr
    · rename_i i s' hok
      injection hr with hr
      subst hr
      unfold new_neq addConstraintK at hok
      obtain ⟨-, hprop⟩ := finishAdd_ok hok
      unfold propagate propagateFromQueue at hprop
      exact allVarsLive_loop hprop (fun v hv => by
        rw [liveAt_eq_of_get (show _ from rfl)]
        exact h v hv)
    · cases hr
  | retract id =>
    simp only [runCmdStrict] at hr
    split at hr
    · rename_i s' hok
      injection hr with hr
      subst hr
      unfold retract_constraint at hok
      split at hok
      · injection hok with hok
        rw [← hok]
        exact h
      · rename_i v1 v2 k hl
        have hprop := finishRetract_ok hok
        unfold propagateTouching propagateFromQueue at hprop
        have hsub : engSub s (clearTouched
            { s with constraints := removeC s.constraints id } id v1 v2) := by
          unfold clearTouched
          exact engSub_clearVar id v2 (engSub_clearVar id v1 (engSub_values_eq rfl))
        refine allVarsLive_loop hprop ?_
        intro v hv
        have hlen : (clearTouched { s with constraints := removeC s.constraints id }
            id v1 v2).values.length = s.values.length :=
          (clearTouched_fields _ id v1 v2).2
        rw [hlen] at hv
        intro hemp
        obtain ⟨x, hx⟩ := List.exists_mem_of_ne_nil _ (h v hv)
        have := liveAt_sub hsub v x hx
        rw [hemp] at this
        cases this
    · cases hr
  | listen v tok =>
    injection hr with hr
    rw [← hr]
    intro w hw
    rw [liveAt_eq_of_get (show _ from rfl)]
    exact h w hw

theorem runAllStrict_live {fuel : Nat} {cmds : List Cmd} :
    ∀ {s s1 : Engine}, (∀ vals, Cmd.addVar vals ∈ cmds → vals ≠ []) →
    runAllStrict fuel s cmds = some s1 → allVarsLive s → allVarsLive s1 := by
  induction cmds with
  | nil =>
    intro s s1 _ h hl
    injection h with h1
    rw [← h1]
    exact hl
  | cons cmd cmds ih =>
    intro s s1 hvals h hl
    rw [runAllStrict_cons] at h
    cases hc : runCmdStrict fuel s cmd with
    | none => rw [hc] at h; cases h
    | some sm =>
      rw [hc] at h
      have hl1 : allVarsLive sm :=
        runCmdStrict_live
          (fun vals hv => hvals vals (by rw [hv] at *; exact List.mem_cons_self _ _))
          hc hl
      exact ih (fun vals hm => hvals vals (List.mem_cons_of_mem _ hm)) h hl1

/-- C2 (amended): after a sequence of public calls that all return success and
in which every `add_var` receives a non-empty value list, every variable's
active domain is non-empty.  (The original claim fails for `add_var []` and
for states in which an earlier mutating call failed; see the counterexample.) -/
theorem nonempty_domains_after_strict {fuel : Nat} {cmds : List Cmd}
    {s : Engine} (hvals : ∀ vals, Cmd.addVar vals ∈ cmds → vals ≠ [])
    (hrun : runAllStrict fuel engineInit cmds = some s) :
    ∀ v d, val s v = some d → d ≠ [] := by
  intro v d hval
  have hlive : allVarsLive s :=
    runAllStrict_live hvals hrun (fun v hv => by cases hv)
  unfold val at hval
  cases hget : s.values.get? v with
  | none => rw [hget] at hval; cases hval
  | some dom =>
    rw [hget] at hval
    injection hval with hval
    obtain ⟨hlt, -⟩ := List.get?_eq_some.mp hget
    have := hlive v hlt
    unfold liveAt at this
    rw [getD_of_get? hget] at this
    rw [← hval]
    exact this

theorem wCmds_addvars : ∀ vals, Cmd.addVar vals ∈ wCmds → vals ≠ [] := by
  intro vals hv
  simp only [wCmds, List.mem_cons, List.not_mem_nil, or_false] at hv
  rcases hv with h | h | h | h | h | h
  · injection h with h1; subst h1; decide
  · injection h with h1; subst h1; decide
  · injection h with h1; subst h1; decide
  · exact Cmd.noConfusion h
  · exact Cmd.noConfusion h
  · exact Cmd.noConfusion h

theorem nonempty_domains_witness :
    (∀ vals, Cmd.addVar vals ∈ wCmds → vals ≠ []) ∧
    runAllStrict 20 engineInit wCmds = some wEnd ∧
    val wEnd 0 = some [2, 3] ∧ ([2, 3] : List Int) ≠ [] :=
  ⟨wCmds_addvars, by decide, by decide,
   @nonempty_domains_after_strict 20 wCmds wEnd wCmds_addvars (by decide) 0 [2, 3]
     (by decide)⟩

theorem runDrive_none (fuel : Nat) (cmds : List Cmd) :
    cmds.foldl (fun acc c => acc.bind (fun s1 => runCmdDrive fuel s1 c))
      (none : Option Engine) = none := by
  induction cmds with
  | nil => rfl
  | cons c cmds ih => simpa using ih

theorem runDrive_cons (fuel : Nat) (s : Engine) (cmd : Cmd) (cmds : List Cmd) :
    runDrive fuel s (cmd :: cmds) =
      (runCmdDrive fuel s cmd).bind (fun s1 => runDrive fuel s1 cmds) := by
  unfold runDrive
  rw [List.foldl_cons]
  cases h : runCmdDrive fuel s cmd with
  | some s1 => simp [h]
  | none => simp [h]; exact runDrive_none fuel cmds

theorem runCmdDrive_invocations {s s1 : Engine} {fuel : Nat} {cmd : Cmd}
    (hr : runCmdDrive fuel s cmd = some s1) : s1.invocations = s.invocations := by
  cases cmd with
  | addVar vals =>
    injection hr with hr
    rw [← hr]
    rfl
  | addEq a b =>
    simp only [runCmdDrive] at hr
    split at hr
    · rename_i i s' hok
      injection hr with hr
      subst hr
      unfold new_eq addConstraintK at hok
      obtain ⟨-, hp⟩ := finishAdd_ok hok
      unfold propagate propagateFromQueue at hp
      exact (propagateLoop_ok_fields _ hp).2.2.1
    · rename_i i e s' herr
      injection hr with hr
      subst hr
      unfold new_eq addConstraintK at herr
      obtain ⟨-, v, hp, -⟩ := finishAdd_err herr
      unfold propagate propagateFromQueue at hp
      exact (propagateLoop_wiped_fields _ hp).2.2.1
    · cases hr
  | addNeq a b =>
    simp only [runCmdDrive] at hr
    split at hr
    · rename_i i s' hok
      injection hr with hr
      subst hr
      unfold new_neq addConstraintK at hok
      obtain ⟨-, hp⟩ := finishAdd_ok hok
      unfold propagate propagateFromQueue at hp
      exact (propagateLoop_ok_fields _ hp).2.2.1
    · rename_i i e s' herr
      injection hr with hr
      subst hr
      unfold new_neq addConstraintK at herr
      obtain ⟨-, v, hp, -⟩ := finishAdd_err herr
      unfold propagate propagateFromQueue at hp
      exact (propagateLoop_wiped_fields _ hp).2.2.1
    · cases hr
  | retract id =>
    simp only [runCmdDrive] at hr
    split at hr
    · rename_i s' hok
      injection hr with hr
      subst hr
      unfold retract_constraint at hok
      split at hok
      · injection hok with hok
        rw [← hok]
      · rename_i v1 v2 k hl
        have hp := finishRetract_ok hok
        unfold propagateTouching propagateFromQueue at hp
        have h1 := (propagateLoop_ok_fields _ hp).2.2.1
        rw [h1]
        have h2 := (clearVar_fields id (clearVar id
          { s with constraints := removeC s.constraints id } v1) v2).2.2.1
        have h3 := (clearVar_fields id
          { s with constraints := removeC s.constraints id } v1).2.2.1
        unfold clearTouched
        rw [h2, h3]
    · cases hr
  | listen v tok =>
    injection hr with hr
    rw [← hr]
    rfl

theorem runDrive_invocations {fuel : Nat} {cmds : List Cmd} :
    ∀ {s s1 : Engine}, runDrive fuel s cmds = some s1 →
    s1.invocations = s.invocations := by
  induction cmds with
  | nil =>
    intro s s1 h
    injection h with h1
    rw [← h1]
  | cons cmd cmds ih =>
    intro s s1 h
    rw [runDrive_cons] at h
    cases hc : runCmdDrive fuel s cmd with
    | none => rw [hc] at h; cases h
    | some sm =>
      rw [hc] at h
      exact (ih h).trans (runCmdDrive_invocations hc)

/-- C9 (amended): the engine stores the registered callbacks but never invokes
them: after any sequence of public calls from the fresh engine — including
mutating calls that change active domains — the ghost invocation log is still
empty. -/
theorem listeners_never_invoked {fuel : Nat} {cmds : List Cmd} {s : Engine}
    (h : runDrive fuel engineInit cmds = some s) : s.invocations = [] :=
  runDrive_invocations h

theorem listeners_never_invoked_witness :
    runDrive 20 engineInit listenCmds = some listenEnd ∧
    listenEnd.invocations = [] :=
  ⟨by decide, @listeners_never_invoked 20 listenCmds listenEnd (by decide)⟩

/-- C10: `add_var(values)` always succeeds and returns an id equal to the
number of variables added before it; it creates one slot per element of
`values` in the given order, each with absent suppressor, and leaves every
existing variable's slots, the constraint registry and the registered
listeners unchanged. -/
theorem add_var_contract (s : Engine) (vals : List Int) :
    (add_var s vals).1 = s.values.length ∧
    (add_var s vals).2.values.get? s.values.length = some (vals.map (fun v => ⟨v, none⟩)) ∧
    val (add_var s vals).2 (add_var s vals).1 = some vals ∧
    (add_var s vals).2.values.take s.values.length = s.values ∧
    (add_var s vals).2.constraints = s.constraints ∧
    (add_var s vals).2.listeners = s.listeners := by
  refine ⟨rfl, ?_, ?_, ?_, rfl, rfl⟩
  · simp [add_var]
  · simp [add_var, val, activeDom_fresh]
  · simp [add_var, List.take_left]

/-- C1 (code bug): constraint ids are reused.  From two one-value variables,
`new_eq(0,1)` returns id `0`; after `retract_constraint(0)` the engine is back
to its pre-add state, and the next `new_eq(0,1)` returns id `0` again — the
source allocates `id = constraints.len()`, which shrinks on retraction. -/
theorem cid_reused_after_retract :
    new_eq 10 pairBase 0 1 = .ok 0 pairWithEq ∧
    retract_constraint 10 pairWithEq 0 = .ok pairBase ∧
    new_eq 10 pairBase 0 1 = .ok 0 pairWithEq := by decide

/-- C2 (counterexample): `add_var` with an empty value list succeeds and
creates a variable whose active domain is empty, violating the non-empty
domain invariant after a successful public call. -/
theorem add_var_empty_breaks_nonempty :
    (add_var engineInit []).1 = 0 ∧ val (add_var engineInit []).2 0 = some [] := by
  decide

/-- C6 (counterexample): a sequence of public calls whose last mutating call
succeeded (so the engine is "Consistent" in the claim's sense), but in which
an earlier `new_eq` failed with a wipeout, reaches a state where
`retract_constraint(0)` re-propagates into a domain wipeout and hits the
panicking branch. -/
theorem retract_wipeout_after_success :
    runDrive 20 engineInit (failOkCmds.take 6) = some failOkPre ∧
    new_eq 20 failOkPre 2 3 = .ok 2 failOkEnd ∧
    runDrive 20 engineInit failOkCmds = some failOkEnd ∧
    retract_constraint 20 failOkEnd 0 = .logicError 0 := by decide

theorem get?_map_eq {α β : Type} (f : α → β) (l : List α) (i : Nat) :
    (l.map f).get? i = (l.get? i).map f := by
  rw [List.get?_eq_getElem?, List.get?_eq_getElem?, List.getElem?_map]

theorem reviseSlot_contract (c : Nat) (activeB : List Int) (k : ConstraintKind)
    (st : ValueState) :
    reviseSlotContract c activeB k st (reviseSlot c activeB k st) := by
  unfold reviseSlotContract
  rw [reviseSlot_spec]
  refine ⟨rfl, ?_⟩
  by_cases hsup : supportSpec k st.value activeB
  · rw [if_pos hsup, if_pos ((hasSupport_iff_spec k st.value activeB).mpr hsup)]
  · rw [if_neg hsup, if_neg (fun hh =>
      hsup ((hasSupport_iff_spec k st.value activeB).mp hh))]

theorem reviseSlot_eq_of_same_suppressor {c : Nat} {activeB : List Int}
    {k : ConstraintKind} {st : ValueState}
    (h : (reviseSlot c activeB k st).suppressed_by = st.suppressed_by) :
    reviseSlot c activeB k st = st := by
  have hv := reviseSlot_value c activeB k st
  cases hf : reviseSlot c activeB k st with
  | mk v sb =>
    rw [hf] at hv h
    simp only at hv h
    rw [hv, h]

/-- C3: the contract of `revise(a, b, kind, cid)`: variable `a`'s domain is
replaced slot-by-slot according to the spec §4.3 table (value kept; a
supported slot's suppressor cleared iff it equals `cid`; an unsupported live
slot killed by `cid`; slots owned by another constraint untouched); no other
variable is modified; on `Ok` the changed flag is true iff some slot's
suppressor was mutated and some slot of `a` is live; the wipeout error is
raised iff after the full pass no slot of `a` is live (and it names `a`). -/
theorem revise_contract {s : Engine} {a b : Nat} {k : ConstraintKind} {c : Nat}
    {dA dB : List ValueState}
    (ha : s.values.get? a = some dA) (hb : s.values.get? b = some dB) :
    ∃ dA1 : List ValueState,
      dA1.length = dA.length ∧
      (∀ i st st1, dA.get? i = some st → dA1.get? i = some st1 →
        reviseSlotContract c (activeDom dB) k st st1) ∧
      (match revise s a b k c with
       | ReviseRes.ok s1 ch =>
          s1.values = s.values.set a dA1 ∧
          (ch = true ↔ ∃ i st st1, dA.get? i = some st ∧ dA1.get? i = some st1 ∧
            st1.suppressed_by ≠ st.suppressed_by) ∧
          ∃ st ∈ dA1, st.suppressed_by = none
       | ReviseRes.wiped v s1 =>
          v = a ∧ s1.values = s.values.set a dA1 ∧
          ∀ st ∈ dA1, st.suppressed_by ≠ none
       | ReviseRes.indexErr => False) := by
  refine ⟨dA.map (reviseSlot c (activeDom dB) k), by simp, ?_, ?_⟩
  · intro i st st1 hst hst1
    have hmap := get?_map_eq (reviseSlot c (activeDom dB) k) dA i
    rw [hst] at hmap
    rw [hst1] at hmap
    injection hmap with hmap
    rw [hmap]
    exact reviseSlot_contract c (activeDom dB) k st
  · cases hr : revise s a b k c with
    | indexErr =>
      have hs := revise_structure s a b k c ha hb
      rw [hr] at hs
      split at hs
      · exact ReviseRes.noConfusion hs
      · exact ReviseRes.noConfusion hs
    | wiped v s1 =>
      obtain ⟨hv, dA', dB', ha', hb', hseq, hall⟩ := revise_wiped_spec hr
      rw [ha] at ha'
      rw [hb] at hb'
      injection ha' with ha'
      injection hb' with hb'
      subst ha'
      subst hb'
      refine ⟨hv, by rw [hseq], ?_⟩
      intro st hmem heq
      have := List.all_eq_true.mp hall st hmem
      rw [heq] at this
      exact Bool.noConfusion this
    | ok s1 ch =>
      obtain ⟨dA', dB', ha', hb', hseq, hch, hall⟩ := revise_ok_spec hr
      rw [ha] at ha'
      rw [hb] at hb'
      injection ha' with ha'
      injection hb' with hb'
      subst ha'
      subst hb'
      refine ⟨by rw [hseq], ?_, ?_⟩
      · constructor
        · intro h1
          rw [h1] at hch
          have hne : dA.map (reviseSlot c (activeDom dB) k) ≠ dA :=
            of_decide_eq_true hch.symm
          have hnall : ¬ ∀ i, (dA.map (reviseSlot c (activeDom dB) k)).get? i =
              dA.get? i := by
            intro hall2
            apply hne
            apply List.ext_getElem?
            intro i
            rw [← List.get?_eq_getElem?, ← List.get?_eq_getElem?]
            exact hall2 i
          push_neg at hnall
          obtain ⟨i, hi⟩ := hnall
          cases hgi : dA.get? i with
          | none =>
            exfalso
            apply hi
            rw [hgi, get?_map_eq, hgi]
            rfl
          | some st =>
            refine ⟨i, st, reviseSlot c (activeDom dB) k st, hgi, ?_, ?_⟩
            · rw [get?_map_eq, hgi]
              rfl
            · intro hsb
              apply hi
              have hfe := reviseSlot_eq_of_same_suppressor hsb
              rw [get?_map_eq, hgi]
              show some (reviseSlot c (activeDom dB) k st) = some st
              rw [hfe]
        · rintro ⟨i, st, st1, hgi, hgi1, hsb⟩
          rw [hch]
          apply decide_eq_true
          intro heq
          rw [heq] at hgi1
          rw [hgi] at hgi1
          injection hgi1 with hgi1
          exact hsb (by rw [hgi1])
      · rw [List.all_eq_true] at hall
        push_neg at hall
        obtain ⟨st, hmem, hns⟩ := hall
        refine ⟨st, hmem, ?_⟩
        cases hsb : st.suppressed_by with
        | none => rfl
        | some c1 =>
          exfalso
          apply hns
          rw [hsb]
          rfl

theorem revise_contract_witness :
    pairBase.values.get? 0 = some [⟨1, none⟩] ∧
    pairBase.values.get? 1 = some [⟨1, none⟩] ∧
    ∃ dA1 : List ValueState,
      dA1.length = [(⟨1, none⟩ : ValueState)].length ∧
      (∀ i st st1, [(⟨1, none⟩ : ValueState)].get? i = some st →
        dA1.get? i = some st1 →
        reviseSlotContract 0 (activeDom [⟨1, none⟩]) ConstraintKind.equality st st1) ∧
      (match revise pairBase 0 1 ConstraintKind.equality 0 with
       | ReviseRes.ok s1 ch =>
          s1.values = pairBase.values.set 0 dA1 ∧
          (ch = true ↔ ∃ i st st1,
            [(⟨1, none⟩ : ValueState)].get? i = some st ∧
            dA1.get? i = some st1 ∧
            st1.suppressed_by ≠ st.suppressed_by) ∧
          ∃ st ∈ dA1, st.suppressed_by = none
       | ReviseRes.wiped v s1 =>
          v = 0 ∧ s1.values = pairBase.values.set 0 dA1 ∧
          ∀ st ∈ dA1, st.suppressed_by ≠ none
       | ReviseRes.indexErr => False) :=
  ⟨rfl, rfl,
   @revise_contract pairBase 0 1 ConstraintKind.equality 0
     [⟨1, none⟩] [⟨1, none⟩] rfl rfl⟩

theorem eraseDups_loop_mem_of : ∀ (l acc : List Nat) (x : Nat),
    x ∈ l ∨ x ∈ acc → x ∈ List.eraseDups.loop l acc := by
  intro l
  induction l with
  | nil =>
    intro acc x h
    unfold List.eraseDups.loop
    rcases h with h1 | h1
    · cases h1
    · exact List.mem_reverse.mpr h1
  | cons a l ih =>
    intro acc x h
    unfold List.eraseDups.loop
    split
    · rename_i hcont
      apply ih
      rcases h with h1 | h1
      · rcases List.mem_cons.mp h1 with he | hm
        · subst he
          exact Or.inr (contains_iff.mp hcont)
        · exact Or.inl hm
      · exact Or.inr h1
    · apply ih
      rcases h with h1 | h1
      · rcases List.mem_cons.mp h1 with he | hm
        · subst he
          exact Or.inr (List.mem_cons_self _ _)
        · exact Or.inl hm
      · exact Or.inr (List.mem_cons_of_mem _ h1)

theorem mem_eraseDups_of_mem {l : List Nat} {x : Nat} (h : x ∈ l) :
    x ∈ l.eraseDups := by
  unfold List.eraseDups
  exact eraseDups_loop_mem_of l [] x (Or.inl h)

theorem propagateLoop_wiped_dom :
    ∀ (fuel : Nat) {s : Engine} {q inq : List Nat} {v : Nat} {s1 : Engine},
    propagateLoop fuel s q inq = PResult.wiped v s1 →
    ∃ d, s1.values.get? v = some d ∧ ∀ st ∈ d, st.suppressed_by.isSome := by
  intro fuel
  induction fuel with
  | zero => intro s q inq v s1 h; cases h
  | succ n ih =>
    intro s q inq v s1 h
    cases q with
    | nil => simp only [propagateLoop] at h; cases h
    | cons c q1 =>
      simp only [propagateLoop] at h
      split at h
      · rename_i r hst
        subst h
        obtain ⟨v1, v2, k, hl, hcase⟩ := stepConstraint_wiped_spec hst
        rcases hcase with hw | ⟨sA, ch1, hok, hw⟩
        · obtain ⟨hv, dA, dB, ha, hb, hseq, hall⟩ := revise_wiped_spec hw
          subst hv
          refine ⟨dA.map (reviseSlot c (activeDom dB) k), ?_, ?_⟩
          · rw [hseq]
            exact get?_set_here ha _
          · exact fun st hst1 => List.all_eq_true.mp hall st hst1
        · obtain ⟨hv, dA, dB, ha, hb, hseq, hall⟩ := revise_wiped_spec hw
          subst hv
          refine ⟨dA.map (reviseSlot c (activeDom dB) k), ?_, ?_⟩
          · rw [hseq]
            exact get?_set_here ha _
          · exact fun st hst1 => List.all_eq_true.mp hall st hst1
      · rename_i s2 changed v1 v2 hst
        split at h
        · exact ih h
        · exact ih h

/-- C4: when `new_eq`/`new_neq` ends in a domain wipeout, the returned error
carries the id of the just-inserted constraint (which remains in the
registry), together with a duplicate-free explanation list holding exactly
the suppressor ids present on the wiped variable's slots after propagation
halted; the wiped variable's active domain is empty in the returned state, so
the prunings stay visible to subsequent `val` queries. -/
theorem add_wipeout_contract {kind : ConstraintKind} {fuel : Nat} {s : Engine}
    {a b : Nat} {i : Nat} {e : List Nat} {s1 : Engine}
    (h : addConstraintK kind fuel s a b = AddRes.err i e s1) :
    i = s.constraints.length ∧
    lookupC s1.constraints i = some (a, b, kind) ∧
    e.Nodup ∧
    ∃ v, val s1 v = some [] ∧
      ∀ c, c ∈ e ↔ ∃ st ∈ s1.values.getD v [], st.suppressed_by = some c := by
  unfold addConstraintK at h
  obtain ⟨hi, v, hp, he⟩ := finishAdd_err h
  unfold propagate propagateFromQueue at hp
  obtain ⟨d, hget, hdead⟩ := propagateLoop_wiped_dom _ hp
  have hfields := propagateLoop_wiped_fields _ hp
  have hnil : activeDom d = [] := by
    unfold activeDom
    have hfil : d.filter (fun st => st.suppressed_by.isNone) = [] := by
      rw [List.filter_eq_nil]
      intro st hst1
      have hs1 := hdead st hst1
      cases hsb : st.suppressed_by with
      | none => rw [hsb] at hs1; exact Bool.noConfusion hs1
      | some c1 =>
        intro hx
        exact Bool.noConfusion hx
    rw [hfil]
    rfl
  have hgd : s1.values.getD v [] = d := getD_of_get? hget
  refine ⟨hi, ?_, ?_, v, ?_, ?_⟩
  · rw [hfields.1, hi]
    exact insertC_lookup_self
  · rw [he]
    exact nodup_eraseDups _
  · unfold val
    rw [hget]
    show some (activeDom d) = some []
    rw [hnil]
  · intro c
    rw [he]
    unfold getConflictExplanation
    constructor
    · intro h1
      exact List.mem_filterMap.mp (mem_of_mem_eraseDups h1)
    · intro h1
      exact mem_eraseDups_of_mem (List.mem_filterMap.mpr h1)

theorem add_wipeout_witness :
    addConstraintK ConstraintKind.equality 20 disjointPair 0 1 =
      AddRes.err 0 [0] disjointWiped ∧
    (0 = disjointPair.constraints.length ∧
     lookupC disjointWiped.constraints 0 = some (0, 1, ConstraintKind.equality) ∧
     ([0] : List Nat).Nodup ∧
     ∃ v, val disjointWiped v = some [] ∧
       ∀ c, c ∈ ([0] : List Nat) ↔
         ∃ st ∈ disjointWiped.values.getD v [], st.suppressed_by = some c) :=
  ⟨by decide,
   @add_wipeout_contract ConstraintKind.equality 20 disjointPair 0 1 0 [0]
     disjointWiped (by decide)⟩

theorem lookupC_key_mem {cs : List (Nat × Nat × Nat × ConstraintKind)} {c : Nat}
    {t : Nat × Nat × ConstraintKind} (h : lookupC cs c = some t) :
    c ∈ keysOf cs := by
  have := lookupC_mem h
  exact List.mem_map_of_mem (fun e => e.1) this

theorem lookupC_none_key {cs : List (Nat × Nat × Nat × ConstraintKind)}
    {id : Nat} (h : lookupC cs id = none) : ∀ e ∈ cs, e.1 ≠ id := by
  intro e he hk
  unfold lookupC at h
  cases hf : cs.find? (fun e => e.1 = id) with
  | some e2 => rw [hf] at h; cases h
  | none =>
    have := List.find?_eq_none.mp hf e he
    simp [hk] at this

theorem removeC_of_none {cs : List (Nat × Nat × Nat × ConstraintKind)}
    {id : Nat} (h : lookupC cs id = none) : removeC cs id = cs := by
  unfold removeC
  apply List.filter_eq_self.mpr
  intro e he
  exact decide_eq_true (lookupC_none_key h e he)

theorem find?_overwrite {cs : List (Nat × Nat × Nat × ConstraintKind)}
    {id c : Nat} {t : Nat × Nat × ConstraintKind} (hne : c ≠ id) :
    (cs.map (fun e => if e.1 = id then (id, t) else e)).find? (fun e => e.1 = c) =
      cs.find? (fun e => e.1 = c) := by
  induction cs with
  | nil => rfl
  | cons e0 cs ih =>
    rw [List.map_cons]
    by_cases hk : e0.1 = id
    · rw [if_pos hk]
      rw [List.find?_cons_of_neg _ (by simp; exact fun h => hne h.symm)]
      rw [List.find?_cons_of_neg _ (by simp [hk]; exact fun h => hne h.symm)]
      exact ih
    · rw [if_neg hk]
      by_cases hc : e0.1 = c
      · rw [List.find?_cons_of_pos _ (by simp [hc]),
          List.find?_cons_of_pos _ (by simp [hc])]
      · rw [List.find?_cons_of_neg _ (by simp [hc]),
          List.find?_cons_of_neg _ (by simp [hc])]
        exact ih

theorem lookupC_insertC_other {cs : List (Nat × Nat × Nat × ConstraintKind)}
    {id c : Nat} {t : Nat × Nat × ConstraintKind} (hne : c ≠ id) :
    lookupC (insertC cs id t) c = lookupC cs c := by
  unfold insertC
  split
  · unfold lookupC
    rw [find?_overwrite hne]
  · unfold lookupC
    rw [List.find?_append]
    have h2 : [(id, t)].find? (fun e => e.1 = c) = none := by
      rw [List.find?_cons_of_neg _ (by simp; exact fun h => hne h.symm)]
      rfl
    rw [h2]
    cases cs.find? (fun e => e.1 = c) <;> rfl

theorem insertC_fresh {cs : List (Nat × Nat × Nat × ConstraintKind)} {id : Nat}
    {t : Nat × Nat × ConstraintKind} (h : ∀ e ∈ cs, e.1 ≠ id) :
    insertC cs id t = cs ++ [(id, t)] := by
  unfold insertC
  have hf : cs.find? (fun e => e.1 = id) = none :=
    List.find?_eq_none.mpr (fun e he => by simp; exact h e he)
  rw [if_neg (by rw [hf]; exact fun hx => Bool.noConfusion hx)]

theorem mapval_clearMarks (d : List ValueState) (id : Nat) :
    (clearMarks d id).map (fun st => st.value) = d.map (fun st => st.value) := by
  unfold clearMarks
  rw [List.map_map]
  apply List.map_congr_left
  intro st _
  simp only [Function.comp]
  split <;> rfl

theorem mapval_reviseSlot (dA : List ValueState) (c : Nat) (activeB : List Int)
    (k : ConstraintKind) :
    (dA.map (reviseSlot c activeB k)).map (fun st => st.value) =
      dA.map (fun st => st.value) := by
  rw [List.map_map]
  apply List.map_congr_left
  intro st _
  simp only [Function.comp]
  exact reviseSlot_value c activeB k st

theorem valuesShape_set {s : Engine} {a : Nat} {d d1 : List ValueState}
    (hget : s.values.get? a = some d)
    (hval : d1.map (fun st => st.value) = d.map (fun st => st.value)) :
    valuesShape { s with values := s.values.set a d1 } = valuesShape s := by
  unfold valuesShape
  show (s.values.set a d1).map _ = _
  rw [List.map_set]
  apply list_set_self
  rw [get?_map_eq, hget]
  exact congrArg some hval.symm

theorem valuesShape_clearVar (id : Nat) (s : Engine) (v : Nat) :
    valuesShape (clearVar id s v) = valuesShape s := by
  unfold clearVar
  split
  · rfl
  · rename_i d hget
    exact valuesShape_set hget (mapval_clearMarks d id)

theorem valuesShape_revise_ok {s s1 : Engine} {a b : Nat} {k : ConstraintKind}
    {c : Nat} {ch : Bool} (h : revise s a b k c = ReviseRes.ok s1 ch) :
    valuesShape s1 = valuesShape s := by
  obtain ⟨dA, dB, ha, hb, hseq, -, -⟩ := revise_ok_spec h
  rw [hseq]
  exact valuesShape_set ha (mapval_reviseSlot dA c (activeDom dB) k)

theorem attrSound_set_revised {s : Engine} {a : Nat} {k : ConstraintKind}
    {c : Nat} {dA dB : List ValueState}
    (hga : s.values.get? a = some dA)
    (hl : ∃ t, lookupC s.constraints c = some t ∧ (a = t.1 ∨ a = t.2.1))
    (ha : attrSound s) :
    attrSound
      { s with values := s.values.set a (dA.map (reviseSlot c (activeDom dB) k)) } := by
  intro w d hw st hst c' hsb
  show ∃ t, lookupC s.constraints c' = some t ∧ (w = t.1 ∨ w = t.2.1)
  by_cases hwa : w = a
  · subst hwa
    have h2 := get?_set_here hga (dA.map (reviseSlot c (activeDom dB) k))
    have hd : d = dA.map (reviseSlot c (activeDom dB) k) := by
      have hw2 : (s.values.set w (dA.map (reviseSlot c (activeDom dB) k))).get? w =
          some d := hw
      rw [h2] at hw2
      injection hw2 with hw2
      exact hw2.symm
    subst hd
    obtain ⟨st0, hst0, hfeq⟩ := List.mem_map.mp hst
    rw [← hfeq] at hsb
    rw [reviseSlot_spec] at hsb
    dsimp only at hsb
    split_ifs at hsb with h1 h2a h3
    · exact ha w dA hga st0 hst0 c' hsb
    · injection hsb with hsb
      obtain ⟨t, hlt, hv⟩ := hl
      exact ⟨t, by rw [← hsb]; exact hlt, hv⟩
    · exact ha w dA hga st0 hst0 c' hsb
  · have hw2 : s.values.get? w = some d := by
      have := get?_set_other (fun he => hwa he.symm)
        (dA.map (reviseSlot c (activeDom dB) k)) (l := s.values) (n := a)
      rw [← this]
      exact hw
    exact ha w d hw2 st hst c' hsb

theorem attrSound_revise_ok {s s1 : Engine} {a b : Nat} {k : ConstraintKind}
    {c : Nat} {ch : Bool} (h : revise s a b k c = ReviseRes.ok s1 ch)
    (hl : ∃ t, lookupC s.constraints c = some t ∧ (a = t.1 ∨ a = t.2.1))
    (ha : attrSound s) : attrSound s1 := by
  obtain ⟨dA, dB, hga, hgb, hseq, -, -⟩ := revise_ok_spec h
  subst hseq
  exact attrSound_set_revised hga hl ha

theorem attrSound_step {s s2 : Engine} {c : Nat} {ch : Bool} {v1 v2 : Nat}
    (h : stepConstraint s c = StepRes.next s2 ch v1 v2) (ha : attrSound s) :
    attrSound s2 := by
  obtain ⟨k, sA, ch1, ch2, hl, hr1, hr2, -⟩ := stepConstraint_next_spec h
  have haA : attrSound sA :=
    attrSound_revise_ok hr1 ⟨(v1, v2, k), hl, Or.inl rfl⟩ ha
  exact attrSound_revise_ok hr2
    ⟨(v1, v2, k), by rw [(revise_ok_fields hr1).1]; exact hl, Or.inr rfl⟩ haA

theorem valuesShape_step {s s2 : Engine} {c : Nat} {ch : Bool} {v1 v2 : Nat}
    (h : stepConstraint s c = StepRes.next s2 ch v1 v2) :
    valuesShape s2 = valuesShape s := by
  obtain ⟨k, sA, ch1, ch2, -, hr1, hr2, -⟩ := stepConstraint_next_spec h
  exact (valuesShape_revise_ok hr2).trans (valuesShape_revise_ok hr1)

theorem loop_attr_shape :
    ∀ (fuel : Nat) {s : Engine} {q inq : List Nat} {s1 : Engine},
    propagateLoop fuel s q inq = PResult.ok s1 →
    (attrSound s → attrSound s1) ∧ valuesShape s1 = valuesShape s := by
  intro fuel
  induction fuel with
  | zero => intro s q inq s1 h; cases h
  | succ n ih =>
    intro s q inq s1 h
    cases q with
    | nil =>
      simp only [propagateLoop] at h
      injection h with h1
      subst h1
      exact ⟨fun ha => ha, rfl⟩
    | cons c q1 =>
      simp only [propagateLoop] at h
      split at h
      · rename_i r hst
        subst h
        exact absurd rfl (stepConstraint_term_not_ok hst s1)
      · rename_i s2 changed v1 v2 hst
        have hstep := attrSound_step hst
        have hshape := valuesShape_step hst
        split at h
        · obtain ⟨ha2, hs2⟩ := ih h
          exact ⟨fun ha => ha2 (hstep ha), hs2.trans hshape⟩
        · obtain ⟨ha2, hs2⟩ := ih h
          exact ⟨fun ha => ha2 (hstep ha), hs2.trans hshape⟩

theorem clearVar_get_self (id : Nat) (s : Engine) (v : Nat) :
    (clearVar id s v).values.get? v =
      (s.values.get? v).map (fun d => clearMarks d id) := by
  unfold clearVar
  split
  · rename_i hget
    rw [hget]
    rfl
  · rename_i d hget
    rw [hget]
    exact get?_set_here hget _

theorem clearVar_marks {id : Nat} {s : Engine} {v w : Nat} {d1 : List ValueState}
    (h1 : (clearVar id s v).values.get? w = some d1) {st1 : ValueState}
    (hst1 : st1 ∈ d1) {c : Nat} (hc : st1.suppressed_by = some c) :
    (w = v → c ≠ id) ∧
    ∃ d st, s.values.get? w = some d ∧ st ∈ d ∧ st.suppressed_by = some c := by
  by_cases hw : w = v
  · subst hw
    rw [clearVar_get_self] at h1
    cases hget : s.values.get? w with
    | none => rw [hget] at h1; cases h1
    | some d =>
      rw [hget] at h1
      injection h1 with h1
      subst h1
      unfold clearMarks at hst1
      obtain ⟨st, hst, hfe⟩ := List.mem_map.mp hst1
      by_cases hsb : st.suppressed_by = some id
      · rw [if_pos hsb] at hfe
        rw [← hfe] at hc
        exact Option.noConfusion hc
      · rw [if_neg hsb] at hfe
        subst hfe
        exact ⟨fun _ hcid => hsb (hcid ▸ hc), d, st, rfl, hst, hc⟩
  · rw [clearVar_get_other (fun he => hw he.symm)] at h1
    exact ⟨fun he => absurd he hw, d1, st1, h1, hst1, hc⟩

theorem clearTouched_marks {s : Engine} {id v1 v2 w : Nat} {d1 : List ValueState}
    (h1 : (clearTouched s id v1 v2).values.get? w = some d1) {st1 : ValueState}
    (hst1 : st1 ∈ d1) {c : Nat} (hc : st1.suppressed_by = some c) :
    ((w = v1 ∨ w = v2) → c ≠ id) ∧
    ∃ d st, s.values.get? w = some d ∧ st ∈ d ∧ st.suppressed_by = some c := by
  unfold clearTouched at h1
  obtain ⟨hc2, d0, st0, hg0, hm0, hs0⟩ := clearVar_marks h1 hst1 hc
  obtain ⟨hc1, d, st, hg, hm, hs⟩ := clearVar_marks hg0 hm0 hs0
  exact ⟨fun hor => hor.elim (fun h => hc1 h) (fun h => hc2 h), d, st, hg, hm, hs⟩

theorem retract_ok_spec {fuel : Nat} {s s' : Engine} {id : Nat}
    (ha : attrSound s) (hnd : nodupKeys s.constraints)
    (h : retract_constraint fuel s id = RetractRes.ok s') :
    s'.constraints = removeC s.constraints id ∧ attrSound s' ∧
    valuesShape s' = valuesShape s := by
  unfold retract_constraint at h
  split at h
  · rename_i hl
    injection h with h1
    subst h1
    exact ⟨(removeC_of_none hl).symm, ha, rfl⟩
  · rename_i v1 v2 k hl
    have hp := finishRetract_ok h
    unfold propagateTouching propagateFromQueue at hp
    have hcc := (clearTouched_fields
      { s with constraints := removeC s.constraints id } id v1 v2).1
    have hac : attrSound (clearTouched
        { s with constraints := removeC s.constraints id } id v1 v2) := by
      intro w d1 hw st1 hst1 c hm
      obtain ⟨hcid, d, st, hget, hstm, hsb⟩ := clearTouched_marks hw hst1 hm
      obtain ⟨t0, hl0, hvar⟩ := ha w d hget st hstm c hsb
      rw [hcc]
      by_cases hcid2 : c = id
      · subst hcid2
        rw [hl] at hl0
        injection hl0 with hl0
        subst hl0
        exact absurd rfl (hcid hvar)
      · refine ⟨t0, ?_, hvar⟩
        show lookupC (removeC s.constraints id) c = some t0
        rw [removeC_lookup_other hcid2]
        exact hl0
    have hshc : valuesShape (clearTouched
        { s with constraints := removeC s.constraints id } id v1 v2) =
        valuesShape s := by
      unfold clearTouched
      rw [valuesShape_clearVar, valuesShape_clearVar]
      rfl
    obtain ⟨hattr, hshape⟩ := loop_attr_shape _ hp
    have hfields := propagateLoop_ok_fields _ hp
    refine ⟨?_, hattr hac, hshape.trans hshc⟩
    rw [hfields.1, hcc]

theorem add_ok_inv {fuel : Nat} {s s' : Engine} {kind : ConstraintKind}
    {a b : Nat} {i : Nat}
    (h : addConstraintK kind fuel s a b = AddRes.ok i s')
    (ha : attrSound s) (hnd : nodupKeys s.constraints)
    (hlt : ∀ k1 ∈ keysOf s.constraints, k1 < s.constraints.length) :
    attrSound s' ∧ nodupKeys s'.constraints ∧
    (∀ k1 ∈ keysOf s'.constraints, k1 < s'.constraints.length) ∧
    valuesShape s' = valuesShape s := by
  unfold addConstraintK at h
  obtain ⟨hi, hp⟩ := finishAdd_ok h
  unfold propagate propagateFromQueue at hp
  have hfresh : ∀ e ∈ s.constraints, e.1 ≠ s.constraints.length := by
    intro e he hk
    have := hlt e.1 (List.mem_map_of_mem _ he)
    rw [hk] at this
    exact Nat.lt_irrefl _ this
  have hins : insertC s.constraints s.constraints.length (a, b, kind) =
      s.constraints ++ [(s.constraints.length, (a, b, kind))] := insertC_fresh hfresh
  have ham : attrSound { s with
      constraints := insertC s.constraints s.constraints.length (a, b, kind) } := by
    intro v d hv st hst c hm
    obtain ⟨t0, hl0, hvar⟩ := ha v d hv st hst c hm
    refine ⟨t0, ?_, hvar⟩
    have hclt : c < s.constraints.length := hlt c (lookupC_key_mem hl0)
    show lookupC (insertC s.constraints s.constraints.length (a, b, kind)) c = some t0
    rw [lookupC_insertC_other (Nat.ne_of_lt hclt)]
    exact hl0
  obtain ⟨hattr, hshape⟩ := loop_attr_shape _ hp
  have hfields := propagateLoop_ok_fields _ hp
  refine ⟨hattr ham, ?_, ?_, ?_⟩
  · rw [hfields.1]
    exact insertC_nodup hnd
  · rw [hfields.1]
    show ∀ k1 ∈ keysOf (insertC s.constraints s.constraints.length (a, b, kind)),
      k1 < (insertC s.constraints s.constraints.length (a, b, kind)).length
    rw [hins]
    intro k1 hk1
    unfold keysOf at hk1
    rw [List.map_append, List.mem_append] at hk1
    rw [List.length_append]
    rcases hk1 with hk1 | hk1
    · exact Nat.lt_succ_of_lt (hlt k1 hk1)
    · simp only [List.map_cons, List.map_nil, List.mem_singleton] at hk1
      subst hk1
      exact Nat.lt_succ_self _
  · exact hshape

theorem addPhase_inv {fuel : Nat} :
    ∀ {cmds : List Cmd} {s sMid : Engine},
    (∀ c ∈ cmds, cmdIsAdd c) →
    runAllStrict fuel s cmds = some sMid →
    attrSound s → nodupKeys s.constraints →
    (∀ k1 ∈ keysOf s.constraints, k1 < s.constraints.length) →
    attrSound sMid ∧ nodupKeys sMid.constraints ∧
    valuesShape sMid = valuesShape s := by
  intro cmds
  induction cmds with
  | nil =>
    intro s sMid _ h ha hnd hlt
    injection h with h1
    subst h1
    exact ⟨ha, hnd, rfl⟩
  | cons cmd cmds ih =>
    intro s sMid hall h ha hnd hlt
    rw [runAllStrict_cons] at h
    cases hc : runCmdStrict fuel s cmd with
    | none => rw [hc] at h; cases h
    | some sm =>
      rw [hc] at h
      have hstep : attrSound sm ∧ nodupKeys sm.constraints ∧
          (∀ k1 ∈ keysOf sm.constraints, k1 < sm.constraints.length) ∧
          valuesShape sm = valuesShape s := by
        have hisadd := hall cmd (List.mem_cons_self _ _)
        cases cmd with
        | addVar vals => exact absurd hisadd (by intro hx; exact hx)
        | retract idr => exact absurd hisadd (by intro hx; exact hx)
        | listen v tok => exact absurd hisadd (by intro hx; exact hx)
        | addEq a b =>
          simp only [runCmdStrict] at hc
          split at hc
          · rename_i i sx hok
            injection hc with hc
            subst hc
            exact add_ok_inv hok ha hnd hlt
          · cases hc
        | addNeq a b =>
          simp only [runCmdStrict] at hc
          split at hc
          · rename_i i sx hok
            injection hc with hc
            subst hc
            exact add_ok_inv hok ha hnd hlt
          · cases hc
      obtain ⟨ha1, hnd1, hlt1, hsh1⟩ := hstep
      obtain ⟨ha2, hnd2, hsh2⟩ :=
        ih (fun c hcm => hall c (List.mem_cons_of_mem _ hcm)) h ha1 hnd1 hlt1
      exact ⟨ha2, hnd2, hsh2.trans hsh1⟩

theorem retractPhase_inv {fuel : Nat} :
    ∀ (perm : List Nat) {s sF : Engine},
    attrSound s → nodupKeys s.constraints →
    (∀ k1 ∈ keysOf s.constraints, k1 ∈ perm) →
    runAllStrict fuel s (perm.map Cmd.retract) = some sF →
    attrSound sF ∧ sF.constraints = [] ∧ valuesShape sF = valuesShape s := by
  intro perm
  induction perm with
  | nil =>
    intro s sF ha hnd hkeys h
    injection h with h1
    subst h1
    refine ⟨ha, ?_, rfl⟩
    cases hcs : s.constraints with
    | nil => rfl
    | cons e cs =>
      exfalso
      have : e.1 ∈ keysOf s.constraints := by
        rw [hcs]
        exact List.mem_map_of_mem _ (List.mem_cons_self _ _)
      exact absurd (hkeys e.1 this) (List.not_mem_nil _)
  | cons id rest ih =>
    intro s sF ha hnd hkeys h
    rw [List.map_cons, runAllStrict_cons] at h
    cases hc : runCmdStrict fuel s (Cmd.retract id) with
    | none => rw [hc] at h; cases h
    | some sm =>
      rw [hc] at h
      simp only [runCmdStrict] at hc
      split at hc
      · rename_i sx hok
        injection hc with hc
        subst hc
        obtain ⟨hcs, ha1, hsh1⟩ := retract_ok_spec ha hnd hok
        have hnd1 : nodupKeys sx.constraints := by
          rw [hcs]
          exact removeC_nodup hnd
        have hkeys1 : ∀ k1 ∈ keysOf sx.constraints, k1 ∈ rest := by
          intro k1 hk1
          rw [hcs] at hk1
          unfold keysOf at hk1
          obtain ⟨e, he, hek⟩ := List.mem_map.mp hk1
          obtain ⟨hecs, hene⟩ := removeC_mem.mp he
          have : k1 ∈ id :: rest := hkeys k1 (by
            rw [← hek]
            exact List.mem_map_of_mem _ hecs)
          rcases List.mem_cons.mp this with h1 | h1
          · exact absurd (hek.trans h1) hene
          · exact h1
        obtain ⟨ha2, hcs2, hsh2⟩ := ih ha1 hnd1 hkeys1 h
        exact ⟨ha2, hcs2, hsh2.trans hsh1⟩
      · cases hc

theorem allLive_of_attrSound_empty {s : Engine} (ha : attrSound s)
    (hc : s.constraints = []) : allLive s := by
  intro d hd st hst
  cases hsb : st.suppressed_by with
  | none => rfl
  | some c =>
    exfalso
    obtain ⟨n, hn⟩ := List.mem_iff_get?.mp hd
    obtain ⟨t, hl, -⟩ := ha n d hn st hst c hsb
    rw [hc] at hl
    cases hl

theorem val_of_allLive {s : Engine} (h : allLive s) (v : Nat) :
    val s v = (valuesShape s).get? v := by
  unfold val valuesShape
  rw [get?_map_eq]
  cases hget : s.values.get? v with
  | none => rfl
  | some d =>
    show some (activeDom d) = some (d.map (fun st => st.value))
    congr 1
    unfold activeDom
    have hfil : d.filter (fun st => st.suppressed_by.isNone) = d := by
      apply List.filter_eq_self.mpr
      intro st hst
      rw [h d (List.mem_iff_get?.mpr ⟨v, hget⟩) st hst]
      rfl
    rw [hfil]

/-- C5 (amended): the retract-restore round trip holds whenever the retract
phase terminates: starting from any state with an empty registry and all
slots live, after a sequence of `new_eq`/`new_neq` calls that all return
`Ok` followed by retract calls covering all registered constraint ids, in
any order, all of which return without panicking, every variable's active
domain equals its original domain.  (The counterexample shows the retract
phase need not terminate, so the unconditional claim fails.) -/
theorem retract_restore_when_ok {fuel1 fuel2 : Nat} {s0 sMid sF : Engine}
    {addCmds : List Cmd} {perm : List Nat}
    (h0c : s0.constraints = []) (h0l : allLive s0)
    (hadds : ∀ c ∈ addCmds, cmdIsAdd c)
    (hrun : runAllStrict fuel1 s0 addCmds = some sMid)
    (hperm : ∀ k1 ∈ keysOf sMid.constraints, k1 ∈ perm)
    (hret : runAllStrict fuel2 sMid (perm.map Cmd.retract) = some sF) :
    ∀ v, val sF v = val s0 v := by
  have h0a : attrSound s0 := by
    intro v d hv st hst c hsb
    exfalso
    have := h0l d (List.mem_iff_get?.mpr ⟨v, hv⟩) st hst
    rw [this] at hsb
    cases hsb
  have h0nd : nodupKeys s0.constraints := by
    rw [h0c]
    exact List.nodup_nil
  have h0lt : ∀ k1 ∈ keysOf s0.constraints, k1 < s0.constraints.length := by
    rw [h0c]
    intro k1 hk1
    cases hk1
  obtain ⟨haM, hndM, hshM⟩ := addPhase_inv hadds hrun h0a h0nd h0lt
  obtain ⟨haF, hcF, hshF⟩ := retractPhase_inv perm haM hndM hperm hret
  have hlF : allLive sF := allLive_of_attrSound_empty haF hcF
  intro v
  rw [val_of_allLive hlF v, val_of_allLive h0l v, hshF, hshM]

theorem retract_restore_witness :
    roundBase.constraints = [] ∧
    runAllStrict 50 roundBase [.addNeq 1 2, .addNeq 3 2, .addNeq 1 3, .addNeq 0 1] =
      some roundMid ∧
    runAllStrict 50 roundMid ([0, 1, 2, 3].map Cmd.retract) = some roundBase ∧
    ∀ v, val roundBase v = val roundBase v :=
  ⟨rfl, by decide, by decide,
   @retract_restore_when_ok 50 50 roundBase roundMid roundBase
     [.addNeq 1 2, .addNeq 3 2, .addNeq 1 3, .addNeq 0 1] [0, 1, 2, 3]
     rfl (by unfold allLive; decide) (by decide) (by decide) (by decide)
     (by decide)⟩

/-- C7 (counterexample): popping a constraint id that is not in the registry
is not skipped: the loop hits the source's `unwrap` panic (`missingKey`)
instead of continuing without error. -/
theorem missing_key_not_skipped :
    propagateFromQueue 5 engineInit [0] = .abort (.missingKey 0) := by decide

theorem lookupC_isSome_of_mem {cs : List (Nat × Nat × Nat × ConstraintKind)}
    {e : Nat × Nat × Nat × ConstraintKind} (he : e ∈ cs) :
    (lookupC cs e.1).isSome := by
  unfold lookupC
  cases hf : cs.find? (fun x => x.1 = e.1) with
  | some _ => rfl
  | none =>
    exfalso
    have := List.find?_eq_none.mp hf e he
    simp at this

theorem propagateLoop_no_missing :
    ∀ (fuel : Nat) {s : Engine} {q inq : List Nat},
    (∀ c ∈ q, (lookupC s.constraints c).isSome) →
    ∀ c1, propagateLoop fuel s q inq ≠ PResult.abort (Abort.missingKey c1) := by
  intro fuel
  induction fuel with
  | zero =>
    intro s q inq hq c1 h
    simp [propagateLoop] at h
  | succ n ih =>
    intro s q inq hq c1 h
    unfold propagateLoop at h
    cases q with
    | nil => exact PResult.noConfusion h
    | cons c q1 =>
      dsimp only at h
      have hq1 : ∀ x ∈ q1, (lookupC s.constraints x).isSome :=
        fun x hx => hq x (List.mem_cons_of_mem _ hx)
      cases hsc : stepConstraint s c with
      | term r =>
        rw [hsc] at h
        subst h
        have hnone := stepConstraint_missing_spec hsc
        have hsome := hq c (List.mem_cons_self _ _)
        rw [hnone] at hsome
        exact Bool.noConfusion hsome
      | next s2 ch v1 v2 =>
        rw [hsc] at h
        dsimp only at h
        have hfields := stepConstraint_next_fields hsc
        split at h
        · refine ih ?_ c1 h
          intro x hx
          rw [hfields.1] at hx ⊢
          unfold enqueueBoth at hx
          rcases enqueueIncident_from hx with hx1 | ⟨e, he, hex⟩
          · rcases enqueueIncident_from hx1 with hx2 | ⟨e, he, hex⟩
            · exact hq1 x hx2
            · rw [← hex]; exact lookupC_isSome_of_mem he
          · rw [← hex]; exact lookupC_isSome_of_mem he
        · refine ih ?_ c1 h
          intro x hx
          rw [hfields.1]
          exact hq1 x hx

/-- C7 (amended): the loop does not skip missing registry entries — it panics
on them (see the counterexample) — but the panic is unreachable whenever every
id seeded into the worklist is present in the registry: ids enqueued during
the loop always come from registry entries, and the registry itself is not
mutated by the loop, so every popped id is found. -/
theorem missing_key_unreachable_when_seeded {fuel : Nat} {s : Engine}
    {initial : List Nat}
    (h : ∀ c ∈ initial, (lookupC s.constraints c).isSome) :
    ∀ c1, propagateFromQueue fuel s initial ≠ PResult.abort (Abort.missingKey c1) :=
  propagateLoop_no_missing fuel h

theorem missing_key_unreachable_witness :
    (∀ c ∈ ([0] : List Nat), (lookupC pairWithEq.constraints c).isSome) ∧
    ∀ c1, propagateFromQueue 5 pairWithEq [0] ≠ PResult.abort (Abort.missingKey c1) :=
  ⟨by decide, @missing_key_unreachable_when_seeded 5 pairWithEq [0] (by decide)⟩

/-- C9 (counterexample): a callback is registered for variable `0` via
`set_listener` and a mutating call then changes the active domain of variable
`0` from `[1,2,3]` to `[2,3]`, yet no callback is invoked (the ghost
invocation log stays empty; the source never calls its listeners). -/
theorem listener_never_called :
    runDrive 20 engineInit listenCmds = some listenEnd ∧
    listenEnd.listeners = [(0, 0)] ∧
    val (add_var (add_var engineInit [1,2,3]).2 [2,3,4]).2 0 = some [1,2,3] ∧
    val listenEnd 0 = some [2,3] ∧
    listenEnd.invocations = [] := by decide

theorem wave_cycle (n : Nat) :
    propagateLoop n (waveE none (some 0) none (some 1)) [1] [1] = .abort .fuelOut ∧
    propagateLoop n (waveE none (some 0) (some 1) none) [0] [0] = .abort .fuelOut ∧
    propagateLoop n (waveE (some 0) none (some 1) none) [1] [1] = .abort .fuelOut ∧
    propagateLoop n (waveE (some 0) none none (some 1)) [0] [0] = .abort .fuelOut := by
  induction n with
  | zero => exact ⟨rfl, rfl, rfl, rfl⟩
  | succ n ih => exact ⟨ih.2.1, ih.2.2.1, ih.2.2.2, ih.1⟩

/-- C8 (code bug): the propagation worklist loop need not terminate.  On the
engine with variables `[1,2]`, `[1,2]`, an equality constraint `0` and an
inequality constraint `1` between them, slot `2` of variable `1` suppressed by
`1`, and the initial worklist `[0,1]` drawn from the registry, the loop runs
forever: it exhausts any amount of fuel. -/
theorem propagation_diverges_on_wave (fuel : Nat) :
    propagateFromQueue fuel (waveE none none none (some 1)) [0, 1] = .abort .fuelOut := by
  cases fuel with
  | zero => rfl
  | succ n => exact (wave_cycle n).1

theorem round_cycle (n : Nat) :
    propagateLoop n (roundE none none none (some 0) (some 1) none) [0, 2] [0, 2] = .abort .fuelOut ∧
    propagateLoop n (roundE none none none none (some 1) none) [2, 1] [2, 1] = .abort .fuelOut ∧
    propagateLoop n (roundE (some 2) none none none (some 1) none) [1, 0] [1, 0] = .abort .fuelOut ∧
    propagateLoop n (roundE (some 2) none none none none none) [0, 2] [0, 2] = .abort .fuelOut ∧
    propagateLoop n (roundE (some 2) none none (some 0) none none) [2, 1] [2, 1] = .abort .fuelOut ∧
    propagateLoop n (roundE none none none (some 0) none none) [1, 0] [1, 0] = .abort .fuelOut := by
  induction n with
  | zero => exact ⟨rfl, rfl, rfl, rfl, rfl, rfl⟩
  | succ n ih => exact ⟨ih.2.1, ih.2.2.1, ih.2.2.2.1, ih.2.2.2.2.1, ih.2.2.2.2.2, ih.1⟩

/-- C5 (counterexample): a sequence of four `add_inequality` calls that all
return `Ok`, followed by retraction of the inserted constraints in the order
`3, 1, 2, 0`, never completes: the re-propagation inside
`retract_constraint(3)` cycles forever, so the active domains are never
restored.  The first conjunct shows the add phase succeeds and reaches
`roundMid`; the second shows the first retract exhausts any amount of fuel. -/
theorem retract_restore_diverges :
    runAllStrict 50 engineInit roundAddCmds = some roundMid ∧
    ∀ fuel, retract_constraint fuel roundMid 3 = .abort .fuelOut := by
  refine ⟨by decide, ?_⟩
  intro fuel
  have h1 := (round_cycle fuel).1
  show finishRetract
      (propagateLoop fuel (roundE none none none (some 0) (some 1) none) [0, 2] [0, 2]) =
    .abort .fuelOut
  rw [h1]
  rfl

end DynamicAC
